import Mathlib

/-!
Verification development for the validation/TypeInfo/subscription-mapping core
of a GraphQL engine. Definitions are shallow embeddings of the TypeScript
source: `TypeInfo.enter`/`TypeInfo.leave` and its accessors, the
`visitWithTypeInfo` wrapper, `mapAsyncIterator`, the `ExecutableDefinitionsRule`
and `VariablesAreInputTypesRule` validation rules, and the memoized analyses
of `ASTValidationContext`/`ValidationContext` (`getFragmentSpreads`,
`getRecursivelyReferencedFragments`, `getVariableUsages`).

Modelling conventions:
- JavaScript arrays used as stacks (push/pop at the end, reads at
  `length - 1`) are modelled as Lean lists with the stack top at the head.
- `null` and `undefined` entries are both modelled as `Option.none`.
- GraphQL type objects are modelled by name-reference (`GType`) resolved
  against a schema environment, since the source manipulates them via
  name lookups and wrapper unwrapping only.
- Promise chains in `mapAsyncIterator` are modelled as a deterministic
  state machine over the source iterator's state: a fulfilled promise is an
  `Except.ok`, a rejected one an `Except.error`, and sequencing of `then`
  callbacks is function composition in call order.
-/

namespace GraphQL

/-- AST type reference nodes (NamedType / ListType / NonNullType). -/
inductive TypeNode where
  | named (name : String)
  | listType (ofType : TypeNode)
  | nonNullType (ofType : TypeNode)
deriving DecidableEq, Repr

/-- Operation kinds of an OperationDefinition node. -/
inductive OpKind where
  | query
  | mutation
  | subscription
deriving DecidableEq, Repr

/-- AST nodes of a GraphQL document, as in `language/ast`. Name and type
sub-nodes are inlined as plain data (nothing in the embedded code dispatches
on Name nodes). The `var` constructor is the source's `Variable` node kind
(`variable` is reserved in Lean). -/
inductive ASTNode where
  | document (definitions : List ASTNode)
  | operationDefinition (operation : OpKind) (opName : Option String)
      (variableDefinitions : List ASTNode) (directives : List ASTNode)
      (selectionSet : ASTNode)
  | variableDefinition (varName : String) (type : TypeNode)
      (defaultValue : Option ASTNode) (directives : List ASTNode)
  | selectionSet (selections : List ASTNode)
  | field (fieldAlias : Option String) (fieldName : String)
      (arguments : List ASTNode) (directives : List ASTNode)
      (selectionSet : Option ASTNode)
  | argument (argName : String) (value : ASTNode)
  | fragmentSpread (fragName : String) (directives : List ASTNode)
  | inlineFragment (typeCondition : Option String) (directives : List ASTNode)
      (selectionSet : ASTNode)
  | fragmentDefinition (fragName : String) (typeCondition : String)
      (directives : List ASTNode) (selectionSet : ASTNode)
  | directive (dirName : String) (arguments : List ASTNode)
  | var (varName : String)
  | intValue (value : Int)
  | floatValue (value : String)
  | stringValue (value : String)
  | booleanValue (value : Bool)
  | nullValue
  | enumValue (value : String)
  | listValue (values : List ASTNode)
  | objectValue (fields : List ASTNode)
  | objectField (name : String) (value : ASTNode)
  | schemaDefinition (directives : List ASTNode)
  | schemaExtension (directives : List ASTNode)
  | scalarTypeDefinition (defName : String)
  | objectTypeDefinition (defName : String)
  | interfaceTypeDefinition (defName : String)
  | unionTypeDefinition (defName : String)
  | enumTypeDefinition (defName : String)
  | inputObjectTypeDefinition (defName : String)
  | directiveDefinition (defName : String)

/-- Node kinds, as in `language/kinds`: `TypeInfo.enter`/`leave` switch on
`node.kind`. -/
inductive NodeKind where
  | documentK | operationDefinitionK | variableDefinitionK | selectionSetK
  | fieldK | argumentK | fragmentSpreadK | inlineFragmentK
  | fragmentDefinitionK | directiveK | variableK | intValueK | floatValueK
  | stringValueK | booleanValueK | nullValueK | enumValueK | listValueK
  | objectValueK | objectFieldK | schemaDefinitionK | schemaExtensionK
  | scalarTypeDefinitionK | objectTypeDefinitionK | interfaceTypeDefinitionK
  | unionTypeDefinitionK | enumTypeDefinitionK | inputObjectTypeDefinitionK
  | directiveDefinitionK
deriving DecidableEq, Repr

/-- The `kind` discriminant of a node. -/
def ASTNode.kind : ASTNode → NodeKind
  | .document _ => .documentK
  | .operationDefinition _ _ _ _ _ => .operationDefinitionK
  | .variableDefinition _ _ _ _ => .variableDefinitionK
  | .selectionSet _ => .selectionSetK
  | .field _ _ _ _ _ => .fieldK
  | .argument _ _ => .argumentK
  | .fragmentSpread _ _ => .fragmentSpreadK
  | .inlineFragment _ _ _ => .inlineFragmentK
  | .fragmentDefinition _ _ _ _ => .fragmentDefinitionK
  | .directive _ _ => .directiveK
  | .var _ => .variableK
  | .intValue _ => .intValueK
  | .floatValue _ => .floatValueK
  | .stringValue _ => .stringValueK
  | .booleanValue _ => .booleanValueK
  | .nullValue => .nullValueK
  | .enumValue _ => .enumValueK
  | .listValue _ => .listValueK
  | .objectValue _ => .objectValueK
  | .objectField _ _ => .objectFieldK
  | .schemaDefinition _ => .schemaDefinitionK
  | .schemaExtension _ => .schemaExtensionK
  | .scalarTypeDefinition _ => .scalarTypeDefinitionK
  | .objectTypeDefinition _ => .objectTypeDefinitionK
  | .interfaceTypeDefinition _ => .interfaceTypeDefinitionK
  | .unionTypeDefinition _ => .unionTypeDefinitionK
  | .enumTypeDefinition _ => .enumTypeDefinitionK
  | .inputObjectTypeDefinition _ => .inputObjectTypeDefinitionK
  | .directiveDefinition _ => .directiveDefinitionK

/-! ### Schema model

Modelled from the spec: the schema of `type/schema` / `type/definition` is not
under `src/`; the spec's "schema view consumed by the core" (§3) describes a
name-keyed type environment, root operation types and directive lookup, from
which the predicates `isCompositeType`, `isInputType`, `isOutputType` and the
unwrapping helpers `getNamedType` / `getNullableType` follow their standard
GraphQL meanings (composite = object/interface/union, input = scalar/enum/input
object and wrappers thereof, output = everything but input objects plus
wrappers). GraphQL type objects are represented by name reference. -/

/-- A GraphQL type: a named schema type or a List/NonNull wrapper. -/
inductive GType where
  | named (name : String)
  | list (ofType : GType)
  | nonNull (ofType : GType)
deriving DecidableEq, Repr

/-- An argument definition of a field or directive. -/
structure ArgDef where
  name : String
  type : GType
  defaultValue : Option ASTNode

/-- A field definition of an object or interface type. -/
structure FieldDef where
  name : String
  args : List ArgDef
  type : GType

/-- An input field definition of an input object type. -/
structure InputFieldDef where
  name : String
  type : GType
  defaultValue : Option ASTNode

/-- The definition body of a named schema type. -/
inductive TypeDef where
  | scalar
  | enum (values : List String)
  | inputObject (fields : List InputFieldDef)
  | object (fields : List FieldDef)
  | interface (fields : List FieldDef)
  | union (members : List String)

/-- A directive definition. -/
structure GDirective where
  name : String
  args : List ArgDef

/-- The schema view consumed by the core. -/
structure GSchema where
  types : List (String × TypeDef)
  queryType : Option String
  mutationType : Option String
  subscriptionType : Option String
  directives : List GDirective

namespace GSchema

/-- `schema.getType(name)`. -/
def getType (s : GSchema) (n : String) : Option TypeDef :=
  (s.types.find? (fun p => p.1 = n)).map (·.2)

/-- `schema.getDirective(name)`. -/
def getDirective (s : GSchema) (n : String) : Option GDirective :=
  s.directives.find? (fun d => d.name = n)

/-- `schema.getQueryType()` as a named type. -/
def getQueryType (s : GSchema) : Option GType := s.queryType.map .named

/-- `schema.getMutationType()` as a named type. -/
def getMutationType (s : GSchema) : Option GType := s.mutationType.map .named

/-- `schema.getSubscriptionType()` as a named type. -/
def getSubscriptionType (s : GSchema) : Option GType :=
  s.subscriptionType.map .named

end GSchema

/-- `getNamedType`: unwrap all List/NonNull wrappers; `none` in, `none` out. -/
def getNamedType : Option GType → Option GType
  | none => none
  | some (.named n) => some (.named n)
  | some (.list t) => getNamedType (some t)
  | some (.nonNull t) => getNamedType (some t)

/-- `getNullableType`: unwrap one NonNull wrapper. -/
def getNullableType : Option GType → Option GType
  | none => none
  | some (.nonNull t) => some t
  | some t => some t

/-- Kind of the named type a `GType` resolves to, if it exists in the schema
and the `GType` is an unwrapped named reference. -/
def namedDef (s : GSchema) : GType → Option TypeDef
  | .named n => s.getType n
  | _ => none

/-- `isCompositeType`: object, interface or union (never a wrapper). -/
def isCompositeType (s : GSchema) (t : GType) : Bool :=
  match namedDef s t with
  | some (.object _) => true
  | some (.interface _) => true
  | some (.union _) => true
  | _ => false

/-- `isObjectType`. -/
def isObjectType (s : GSchema) (t : GType) : Bool :=
  match namedDef s t with
  | some (.object _) => true
  | _ => false

/-- `isInterfaceType`. -/
def isInterfaceType (s : GSchema) (t : GType) : Bool :=
  match namedDef s t with
  | some (.interface _) => true
  | _ => false

/-- `isEnumType`. -/
def isEnumType (s : GSchema) (t : GType) : Bool :=
  match namedDef s t with
  | some (.enum _) => true
  | _ => false

/-- `isInputObjectType`. -/
def isInputObjectType (s : GSchema) (t : GType) : Bool :=
  match namedDef s t with
  | some (.inputObject _) => true
  | _ => false

/-- `isListType`. -/
def isListType : Option GType → Bool
  | some (.list _) => true
  | _ => false

/-- `isInputType`: scalar, enum or input object, possibly wrapped. -/
def isInputType (s : GSchema) : GType → Bool
  | .named n =>
    match s.getType n with
    | some .scalar => true
    | some (.enum _) => true
    | some (.inputObject _) => true
    | _ => false
  | .list t => isInputType s t
  | .nonNull t => isInputType s t

/-- `isOutputType`: scalar, object, interface, union or enum, possibly
wrapped. -/
def isOutputType (s : GSchema) : GType → Bool
  | .named n =>
    match s.getType n with
    | some .scalar => true
    | some (.enum _) => true
    | some (.object _) => true
    | some (.interface _) => true
    | some (.union _) => true
    | _ => false
  | .list t => isOutputType s t
  | .nonNull t => isOutputType s t

/-- Modelled from the spec: `typeFromAST` (`utilities/typeFromAST` is not under
`src/`): resolve the named type through the schema, wrapping with List/NonNull;
unknown named types yield `none` (spec §4.1: "determine the schema type from
its AST type reference"). -/
def typeFromAST (s : GSchema) : TypeNode → Option GType
  | .named n => if (s.getType n).isSome then some (.named n) else none
  | .listType t => (typeFromAST s t).map .list
  | .nonNullType t => (typeFromAST s t).map .nonNull

/-- Fields of an object or interface type definition. -/
def TypeDef.fieldList : TypeDef → List FieldDef
  | .object fs => fs
  | .interface fs => fs
  | _ => []

/-! ### TypeInfo (`TypeInfo` in the source, part_005) -/

/-- Introspection meta field `__schema` (`SchemaMetaFieldDef`). -/
def SchemaMetaFieldDef : FieldDef :=
  { name := "__schema", args := [], type := .nonNull (.named "__Schema") }

/-- Introspection meta field `__type` (`TypeMetaFieldDef`). -/
def TypeMetaFieldDef : FieldDef :=
  { name := "__type",
    args := [{ name := "name", type := .nonNull (.named "String"),
               defaultValue := none }],
    type := .named "__Type" }

/-- Introspection meta field `__typename` (`TypeNameMetaFieldDef`). -/
def TypeNameMetaFieldDef : FieldDef :=
  { name := "__typename", args := [], type := .nonNull (.named "String") }

/-- The module-level `getFieldDef` helper of the TypeInfo source file:
meta fields `__schema`/`__type` only on the query root, `__typename` on any
composite parent, otherwise the parent's field map. -/
def getFieldDef (s : GSchema) (parentType : GType) (fieldName : String) :
    Option FieldDef :=
  if fieldName = SchemaMetaFieldDef.name ∧ s.getQueryType = some parentType then
    some SchemaMetaFieldDef
  else if fieldName = TypeMetaFieldDef.name ∧ s.getQueryType = some parentType then
    some TypeMetaFieldDef
  else if fieldName = TypeNameMetaFieldDef.name ∧ isCompositeType s parentType then
    some TypeNameMetaFieldDef
  else if isObjectType s parentType ∨ isInterfaceType s parentType then
    match namedDef s parentType with
    | some td => td.fieldList.find? (fun f => f.name = fieldName)
    | none => none
  else none

/-- The state of a `TypeInfo` instance. Stacks are lists with the top at the
head (the source uses JS arrays with the top at the end); `null`/`undefined`
entries are `none`. -/
structure TypeInfo where
  schema : GSchema
  typeStack : List (Option GType)
  parentTypeStack : List (Option GType)
  inputTypeStack : List (Option GType)
  fieldDefStack : List (Option FieldDef)
  defaultValueStack : List (Option ASTNode)
  directive : Option GDirective
  argument : Option ArgDef
  enumValue : Option String

namespace TypeInfo

/-- The `TypeInfo` constructor with no initial type: all stacks empty. -/
def mk0 (s : GSchema) : TypeInfo :=
  { schema := s, typeStack := [], parentTypeStack := [], inputTypeStack := [],
    fieldDefStack := [], defaultValueStack := [], directive := none,
    argument := none, enumValue := none }

/-- `getType()`: top of `_typeStack` if non-empty, else undefined. -/
def getType (ti : TypeInfo) : Option GType :=
  match ti.typeStack with
  | [] => none
  | t :: _ => t

/-- `getParentType()`: top of `_parentTypeStack` if non-empty. -/
def getParentType (ti : TypeInfo) : Option GType :=
  match ti.parentTypeStack with
  | [] => none
  | t :: _ => t

/-- `getInputType()`: top of `_inputTypeStack` if non-empty. -/
def getInputType (ti : TypeInfo) : Option GType :=
  match ti.inputTypeStack with
  | [] => none
  | t :: _ => t

/-- `getParentInputType()`: the entry below the top of `_inputTypeStack`,
when the stack has more than one entry. -/
def getParentInputType (ti : TypeInfo) : Option GType :=
  match ti.inputTypeStack with
  | _ :: t :: _ => t
  | _ => none

/-- `getFieldDef()`: top of `_fieldDefStack` if non-empty. -/
def getFieldDef (ti : TypeInfo) : Option FieldDef :=
  match ti.fieldDefStack with
  | [] => none
  | f :: _ => f

/-- `getDefaultValue()`: top of `_defaultValueStack` if non-empty. -/
def getDefaultValue (ti : TypeInfo) : Option ASTNode :=
  match ti.defaultValueStack with
  | [] => none
  | d :: _ => d

/-- `getDirective()`. -/
def getDirective (ti : TypeInfo) : Option GDirective := ti.directive

/-- `getArgument()`. -/
def getArgument (ti : TypeInfo) : Option ArgDef := ti.argument

/-- `getEnumValue()`. -/
def getEnumValue (ti : TypeInfo) : Option String := ti.enumValue

/-- `TypeInfo.enter(node)`: the switch on `node.kind`. -/
def enter (ti : TypeInfo) (node : ASTNode) : TypeInfo :=
  let schema := ti.schema
  match node with
  | .selectionSet _ =>
    let namedType := getNamedType ti.getType
    { ti with parentTypeStack :=
        (match namedType with
         | some t => if isCompositeType schema t then some t else none
         | none => none) :: ti.parentTypeStack }
  | .field _ fieldName _ _ _ =>
    let parentType := ti.getParentType
    let fieldDef :=
      match parentType with
      | some pt => GraphQL.getFieldDef schema pt fieldName
      | none => none
    let fieldType := fieldDef.map (·.type)
    { ti with
      fieldDefStack := fieldDef :: ti.fieldDefStack,
      typeStack :=
        (match fieldType with
         | some t => if isOutputType schema t then some t else none
         | none => none) :: ti.typeStack }
  | .directive dirName _ =>
    { ti with directive := schema.getDirective dirName }
  | .operationDefinition op _ _ _ _ =>
    let t : Option GType :=
      match op with
      | .query => schema.getQueryType
      | .mutation => schema.getMutationType
      | .subscription => schema.getSubscriptionType
    { ti with typeStack :=
        (match t with
         | some t => if isObjectType schema t then some t else none
         | none => none) :: ti.typeStack }
  | .inlineFragment typeCondition _ _ =>
    let outputType : Option GType :=
      match typeCondition with
      | some n => typeFromAST schema (.named n)
      | none => getNamedType ti.getType
    { ti with typeStack :=
        (match outputType with
         | some t => if isOutputType schema t then some t else none
         | none => none) :: ti.typeStack }
  | .fragmentDefinition _ typeCondition _ _ =>
    let outputType : Option GType := typeFromAST schema (.named typeCondition)
    { ti with typeStack :=
        (match outputType with
         | some t => if isOutputType schema t then some t else none
         | none => none) :: ti.typeStack }
  | .variableDefinition _ tn _ _ =>
    let inputType : Option GType := typeFromAST schema tn
    { ti with inputTypeStack :=
        (match inputType with
         | some t => if isInputType schema t then some t else none
         | none => none) :: ti.inputTypeStack }
  | .argument argName _ =>
    let fieldOrDirectiveArgs : Option (List ArgDef) :=
      match ti.getDirective with
      | some d => some d.args
      | none => ti.getFieldDef.map (·.args)
    let argDef :=
      match fieldOrDirectiveArgs with
      | some args => args.find? (fun a => a.name = argName)
      | none => none
    { ti with
      argument := argDef,
      defaultValueStack :=
        (argDef.bind (·.defaultValue)) :: ti.defaultValueStack,
      inputTypeStack :=
        (match argDef.map (·.type) with
         | some t => if isInputType schema t then some t else none
         | none => none) :: ti.inputTypeStack }
  | .listValue _ =>
    let listType := getNullableType ti.getInputType
    let itemType : Option GType :=
      match listType with
      | some (.list t) => some t
      | other => other
    { ti with
      defaultValueStack := none :: ti.defaultValueStack,
      inputTypeStack :=
        (match itemType with
         | some t => if isInputType schema t then some t else none
         | none => none) :: ti.inputTypeStack }
  | .objectField name _ =>
    let objectType := getNamedType ti.getInputType
    let inputField : Option InputFieldDef :=
      match objectType with
      | some (.named n) =>
        match schema.getType n with
        | some (.inputObject fs) => fs.find? (fun f => f.name = name)
        | _ => none
      | _ => none
    { ti with
      defaultValueStack :=
        (inputField.bind (·.defaultValue)) :: ti.defaultValueStack,
      inputTypeStack :=
        (match inputField.map (·.type) with
         | some t => if isInputType schema t then some t else none
         | none => none) :: ti.inputTypeStack }
  | .enumValue v =>
    let enumType := getNamedType ti.getInputType
    let ev : Option String :=
      match enumType with
      | some (.named n) =>
        match schema.getType n with
        | some (.enum vs) => if v ∈ vs then some v else none
        | _ => none
      | _ => none
    { ti with enumValue := ev }
  | _ => ti

/-- `TypeInfo.leave(node)`: the switch on `node.kind`. -/
def leave (ti : TypeInfo) (node : ASTNode) : TypeInfo :=
  match node.kind with
  | .selectionSetK => { ti with parentTypeStack := ti.parentTypeStack.tail }
  | .fieldK => { ti with fieldDefStack := ti.fieldDefStack.tail,
                         typeStack := ti.typeStack.tail }
  | .directiveK => { ti with directive := none }
  | .operationDefinitionK => { ti with typeStack := ti.typeStack.tail }
  | .inlineFragmentK => { ti with typeStack := ti.typeStack.tail }
  | .fragmentDefinitionK => { ti with typeStack := ti.typeStack.tail }
  | .variableDefinitionK => { ti with inputTypeStack := ti.inputTypeStack.tail }
  | .argumentK => { ti with argument := none,
                            defaultValueStack := ti.defaultValueStack.tail,
                            inputTypeStack := ti.inputTypeStack.tail }
  | .listValueK => { ti with defaultValueStack := ti.defaultValueStack.tail,
                             inputTypeStack := ti.inputTypeStack.tail }
  | .objectFieldK => { ti with defaultValueStack := ti.defaultValueStack.tail,
                               inputTypeStack := ti.inputTypeStack.tail }
  | .enumValueK => { ti with enumValue := none }
  | _ => ti

end TypeInfo

/-! ### Push/pop discipline of the TypeInfo stacks -/

/-- Number of entries `enter` pushes onto `_typeStack` (and `leave` pops),
as a function of the node kind alone. -/
def typePushCount : NodeKind → Nat
  | .fieldK | .operationDefinitionK | .inlineFragmentK
  | .fragmentDefinitionK => 1
  | _ => 0

/-- Number of entries `enter` pushes onto `_parentTypeStack`. -/
def parentTypePushCount : NodeKind → Nat
  | .selectionSetK => 1
  | _ => 0

/-- Number of entries `enter` pushes onto `_inputTypeStack`. -/
def inputTypePushCount : NodeKind → Nat
  | .variableDefinitionK | .argumentK | .listValueK | .objectFieldK => 1
  | _ => 0

/-- Number of entries `enter` pushes onto `_fieldDefStack`. -/
def fieldDefPushCount : NodeKind → Nat
  | .fieldK => 1
  | _ => 0

/-- Number of entries `enter` pushes onto `_defaultValueStack`. -/
def defaultValuePushCount : NodeKind → Nat
  | .argumentK | .listValueK | .objectFieldK => 1
  | _ => 0

/-- C1: for every AST node `n` and every `TypeInfo` state `ti`, `enter n`
followed by `leave n` restores all five stacks (`_typeStack`,
`_parentTypeStack`, `_inputTypeStack`, `_fieldDefStack`,
`_defaultValueStack`) to exactly their prior contents; moreover `enter`
only pushes a number of entries determined by `n.kind` alone, leaving every
entry below the new top unmodified, and `leave` pops exactly that same
number of entries, so the push/pop pairs are symmetric and driven solely by
the node kind. -/
theorem typeInfo_enter_leave_balanced (ti : TypeInfo) (n : ASTNode) :
    (((ti.enter n).leave n).typeStack = ti.typeStack ∧
     ((ti.enter n).leave n).parentTypeStack = ti.parentTypeStack ∧
     ((ti.enter n).leave n).inputTypeStack = ti.inputTypeStack ∧
     ((ti.enter n).leave n).fieldDefStack = ti.fieldDefStack ∧
     ((ti.enter n).leave n).defaultValueStack = ti.defaultValueStack) ∧
    ((ti.enter n).typeStack.drop (typePushCount n.kind) = ti.typeStack ∧
     (ti.enter n).parentTypeStack.drop (parentTypePushCount n.kind) =
       ti.parentTypeStack ∧
     (ti.enter n).inputTypeStack.drop (inputTypePushCount n.kind) =
       ti.inputTypeStack ∧
     (ti.enter n).fieldDefStack.drop (fieldDefPushCount n.kind) =
       ti.fieldDefStack ∧
     (ti.enter n).defaultValueStack.drop (defaultValuePushCount n.kind) =
       ti.defaultValueStack) ∧
    ((ti.leave n).typeStack = ti.typeStack.drop (typePushCount n.kind) ∧
     (ti.leave n).parentTypeStack =
       ti.parentTypeStack.drop (parentTypePushCount n.kind) ∧
     (ti.leave n).inputTypeStack =
       ti.inputTypeStack.drop (inputTypePushCount n.kind) ∧
     (ti.leave n).fieldDefStack =
       ti.fieldDefStack.drop (fieldDefPushCount n.kind) ∧
     (ti.leave n).defaultValueStack =
       ti.defaultValueStack.drop (defaultValuePushCount n.kind)) := by
  cases n <;>
    simp [TypeInfo.enter, TypeInfo.leave, ASTNode.kind, typePushCount,
      parentTypePushCount, inputTypePushCount, fieldDefPushCount,
      defaultValuePushCount, List.drop_one]

/-- C10: the TypeInfo accessors are total functions of the state: each
returns the top entry of its stack (`none` when the stack is empty, since
`Option.join` of a failed lookup is `none`), and `getParentInputType`
returns the entry below the top of the input-type stack (`none` when the
stack has fewer than two entries) while `getInputType` returns its top
entry. -/
theorem typeInfo_accessors_read_stack_tops (ti : TypeInfo) :
    ti.getType = ti.typeStack.head?.join ∧
    ti.getParentType = ti.parentTypeStack.head?.join ∧
    ti.getInputType = (ti.inputTypeStack[0]?).join ∧
    ti.getParentInputType = (ti.inputTypeStack[1]?).join ∧
    ti.getFieldDef = ti.fieldDefStack.head?.join ∧
    ti.getDefaultValue = ti.defaultValueStack.head?.join := by
  obtain ⟨s, ts, pts, its, fds, dvs, d, a, e⟩ := ti
  refine ⟨?_, ?_, ?_, ?_, ?_, ?_⟩
  · cases ts <;> rfl
  · cases pts <;> rfl
  · cases its <;> simp [TypeInfo.getInputType]
  · cases its with
    | nil => rfl
    | cons x t => cases t <;> simp [TypeInfo.getParentInputType]
  · cases fds <;> rfl
  · cases dvs <;> rfl

/-! ### mapAsyncIterator (part_002)

The source builds the mapped iterator out of promise chains. The embedding
reduces them to a deterministic state machine over the source iterator's
state: the source is a well-behaved async generator holding a list of
pending values and a completion value, `next()` on the mapped iterator is a
state transition returning `Except.error e` where the original returns a
promise rejected with `e`, and the generator's `return()` method increments
an invocation counter and closes the source. The callback is a function
into `Except`, `Except.error` standing for a thrown error or rejected
promise. -/

/-- A step result of an (async) iterator: a yielded value or completion. -/
inductive IterStep (τ ρ : Type) where
  | yield (value : τ)
  | done (value : ρ)
deriving DecidableEq, Repr

/-- State of the source async generator: values not yet yielded, the
completion value, whether the generator is closed, and how many times its
`return()` method has been invoked. -/
structure SourceIter (τ ρ : Type) where
  pending : List τ
  retVal : ρ
  closed : Bool
  returnCount : Nat
deriving DecidableEq, Repr

namespace SourceIter

/-- `iterator.next()`: yields the next pending value; a closed or exhausted
generator reports completion. -/
def next (s : SourceIter τ ρ) : IterStep τ ρ × SourceIter τ ρ :=
  if s.closed then (.done s.retVal, s)
  else
    match s.pending with
    | [] => (.done s.retVal, { s with closed := true })
    | v :: rest => (.yield v, { s with pending := rest })

/-- `iterator.return()` (the captured `$return`): closes the generator and
records the invocation. -/
def ret (s : SourceIter τ ρ) : IterStep τ ρ × SourceIter τ ρ :=
  (.done s.retVal, { s with closed := true, returnCount := s.returnCount + 1 })

end SourceIter

/-- `abruptClose(error)`: invoke the source's `return()`, then re-raise the
original error whether `return()` fulfilled or rejected (`rethrow` is
installed as both fulfillment and rejection handler). Only defined when the
source has a callable `return`, which the `hasReturn` flag reflects. -/
def abruptClose (hasReturn : Bool) (e : ε) (s : SourceIter τ ρ) :
    Except ε (IterStep υ ρ) × SourceIter τ ρ :=
  if hasReturn then (.error e, s.ret.2) else (.error e, s)

/-- `mapResult(result)` composed with the promise plumbing of `next()`:
a done result is propagated unchanged; otherwise the callback is applied
(`asyncMapValue`), a successful value is wrapped by `iteratorResult` as
`{value, done: false}`, and a thrown error goes through `abruptClose`. -/
def mapResult (hasReturn : Bool) (callback : τ → Except ε υ)
    (r : IterStep τ ρ) (s : SourceIter τ ρ) :
    Except ε (IterStep υ ρ) × SourceIter τ ρ :=
  match r with
  | .done rv => (.ok (.done rv), s)
  | .yield v =>
    match callback v with
    | .ok u => (.ok (.yield u), s)
    | .error e => abruptClose hasReturn e s

/-- `next()` of the iterator returned by `mapAsyncIterator`:
`iterator.next().then(mapResult, mapReject)` with no `rejectCallback`
supplied (the source generator never rejects in this model, so `mapReject`
is never consulted). -/
def mappedNext (hasReturn : Bool) (callback : τ → Except ε υ)
    (s : SourceIter τ ρ) : Except ε (IterStep υ ρ) × SourceIter τ ρ :=
  mapResult hasReturn callback s.next.1 s.next.2

/-- Drive the mapped iterator with `n` successive `next()` calls, collecting
the settled results in order. -/
def runMapped (hasReturn : Bool) (callback : τ → Except ε υ) :
    Nat → SourceIter τ ρ → List (Except ε (IterStep υ ρ)) × SourceIter τ ρ
  | 0, s => ([], s)
  | n + 1, s =>
    ((mappedNext hasReturn callback s).1 ::
       (runMapped hasReturn callback n (mappedNext hasReturn callback s).2).1,
     (runMapped hasReturn callback n (mappedNext hasReturn callback s).2).2)

/-- A fresh source generator over the given values. -/
def freshSource (vs : List τ) (rv : ρ) : SourceIter τ ρ :=
  { pending := vs, retVal := rv, closed := false, returnCount := 0 }

/-- One mapped `next()` on an open source with a pending value the callback
maps successfully. -/
theorem mappedNext_yield_ok (hr : Bool) (cb : τ → Except ε υ) (v : τ)
    (vs : List τ) (rv : ρ) (c : Nat) (u : υ) (h : cb v = .ok u) :
    mappedNext hr cb ⟨v :: vs, rv, false, c⟩ =
      (.ok (.yield u), ⟨vs, rv, false, c⟩) := by
  simp [mappedNext, SourceIter.next, mapResult, h]

/-- One mapped `next()` on an open source with a pending value the callback
throws on, when the source has a `return()` method: abrupt close. -/
theorem mappedNext_yield_error (cb : τ → Except ε υ) (v : τ)
    (vs : List τ) (rv : ρ) (c : Nat) (e : ε) (h : cb v = .error e) :
    mappedNext true cb ⟨v :: vs, rv, false, c⟩ =
      (.error e, ⟨vs, rv, true, c + 1⟩) := by
  simp [mappedNext, SourceIter.next, mapResult, h, abruptClose,
    SourceIter.ret]

/-- One mapped `next()` on an open, exhausted source: the done result is
propagated unchanged. -/
theorem mappedNext_done (hr : Bool) (cb : τ → Except ε υ) (rv : ρ)
    (c : Nat) :
    mappedNext hr cb (⟨[], rv, false, c⟩ : SourceIter τ ρ) =
      (.ok (.done rv), ⟨[], rv, true, c⟩) := by
  simp [mappedNext, SourceIter.next, mapResult]

/-- Unfolding a run of zero `next()` calls. -/
theorem runMapped_zero (hr : Bool) (cb : τ → Except ε υ)
    (s : SourceIter τ ρ) : runMapped hr cb 0 s = ([], s) := rfl

/-- Unfolding one `next()` call of a run. -/
theorem runMapped_succ (hr : Bool) (cb : τ → Except ε υ) (n : Nat)
    (s : SourceIter τ ρ) :
    runMapped hr cb (n + 1) s =
      ((mappedNext hr cb s).1 ::
         (runMapped hr cb n (mappedNext hr cb s).2).1,
       (runMapped hr cb n (mappedNext hr cb s).2).2) := rfl

/-- Splitting a run of `next()` calls into two consecutive runs. -/
theorem runMapped_add (hr : Bool) (cb : τ → Except ε υ) (m n : Nat)
    (s : SourceIter τ ρ) :
    runMapped hr cb (m + n) s =
      ((runMapped hr cb m s).1 ++
        (runMapped hr cb n (runMapped hr cb m s).2).1,
       (runMapped hr cb n (runMapped hr cb m s).2).2) := by
  induction m generalizing s with
  | zero => simp [runMapped]
  | succ m ih =>
    have h : m + 1 + n = (m + n) + 1 := by omega
    rw [h, runMapped_succ, ih, runMapped_succ]
    simp

/-- Once the source generator is closed, further `next()` calls report
completion and never change its state; in particular `return()` is never
invoked again. -/
theorem runMapped_closed (hr : Bool) (cb : τ → Except ε υ) (k : Nat)
    (s : SourceIter τ ρ) (h : s.closed = true) :
    runMapped hr cb k s = (List.replicate k (.ok (.done s.retVal)), s) := by
  induction k with
  | zero => simp [runMapped]
  | succ k ih =>
    simp [runMapped, mappedNext, SourceIter.next, h, mapResult, ih,
      List.replicate_succ]

/-- C3: for a source that yields `v0, ..., v(n-1)` and then completes with
`rv`, and any non-throwing callback `fun v => Except.ok (f v)`, the iterator
returned by `mapAsyncIterator` yields `{value := f vi, done := false}` for
each `i` in source order and then propagates the source's done result `rv`
unchanged; the source is never abruptly closed (`returnCount` stays 0). -/
theorem mapAsyncIterator_maps_in_order (ε : Type) (hr : Bool) (f : τ → υ)
    (vs : List τ) (rv : ρ) :
    runMapped hr (fun v => (.ok (f v) : Except ε υ)) (vs.length + 1)
        (freshSource vs rv) =
      (vs.map (fun v => .ok (.yield (f v))) ++ [.ok (.done rv)],
       { pending := [], retVal := rv, closed := true, returnCount := 0 }) := by
  induction vs with
  | nil => rfl
  | cons v rest ih =>
    rw [freshSource, List.length_cons, runMapped_succ,
      mappedNext_yield_ok hr _ v rest rv 0 (f v) rfl]
    rw [freshSource] at ih
    dsimp only
    rw [ih]
    simp

/-- C2: if the callback throws (`Except.error e`) on the value yielded after
a prefix `pre` of successfully mapped values, then the corresponding
`next()` call settles as a rejection with that same error, the source's
`return()` has been invoked exactly once when that rejection is delivered
(`returnCount` goes from 0 to 1 and the source is closed), and over the
rest of the mapped iterator's lifecycle no further close occurs:
`returnCount` remains exactly 1 after any number of further `next()`
calls. -/
theorem mapAsyncIterator_callback_error_closes_source
    (pre post : List τ) (w : τ) (rv : ρ) (cb : τ → Except ε υ) (f : τ → υ)
    (e : ε) (hpre : ∀ v ∈ pre, cb v = .ok (f v)) (hw : cb w = .error e) :
    runMapped true cb (pre.length + 1) (freshSource (pre ++ w :: post) rv) =
      (pre.map (fun v => .ok (.yield (f v))) ++ [.error e],
       { pending := post, retVal := rv, closed := true, returnCount := 1 }) ∧
    ∀ k, (runMapped true cb (pre.length + 1 + k)
            (freshSource (pre ++ w :: post) rv)).2.returnCount = 1 := by
  have main : runMapped true cb (pre.length + 1)
      (freshSource (pre ++ w :: post) rv) =
      (pre.map (fun v => .ok (.yield (f v))) ++ [.error e],
       { pending := post, retVal := rv, closed := true, returnCount := 1 }) := by
    induction pre with
    | nil =>
      rw [freshSource, List.nil_append, List.length_nil, runMapped_succ,
        mappedNext_yield_error cb w post rv 0 e hw]
      rfl
    | cons v rest ih =>
      have hv : cb v = .ok (f v) := hpre v (by simp)
      rw [freshSource, List.cons_append, List.length_cons, runMapped_succ,
        mappedNext_yield_ok true cb v (rest ++ w :: post) rv 0 (f v) hv]
      have ih' := ih (fun u hu => hpre u (by simp [hu]))
      rw [freshSource] at ih'
      dsimp only
      rw [ih']
      simp
  refine ⟨main, fun k => ?_⟩
  rw [runMapped_add, main, runMapped_closed]
  rfl

/-- Witness for C2 at a concrete input: source `[1, 2, 3]`, callback
succeeding on `1` with `+1` and throwing `"boom"` on `2`. -/
theorem mapAsyncIterator_callback_error_closes_source_witness :
    runMapped true
        (fun v : Nat => if v = 2 then .error "boom" else .ok (v + 1))
        2 (freshSource [1, 2, 3] 0) =
      ([.ok (.yield 2), .error "boom"],
       { pending := [3], retVal := 0, closed := true, returnCount := 1 }) ∧
    ∀ k, (runMapped true
        (fun v : Nat => if v = 2 then .error "boom" else .ok (v + 1))
        (2 + k) (freshSource [1, 2, 3] 0)).2.returnCount = 1 := by
  have h := mapAsyncIterator_callback_error_closes_source
    [1] [3] 2 (0 : Nat)
    (fun v : Nat => if v = 2 then .error "boom" else .ok (v + 1))
    (fun v => v + 1) "boom" (by intro v hv; simp at hv; subst hv; rfl) rfl
  simpa using h

/-! ### ExecutableDefinitionsRule -/

/-- Modelled from the spec: `isExecutableDefinitionNode`
(`language/predicates` is not under `src/`): a definition is executable iff
it is an operation or fragment definition (spec §4.6: "every top-level
definition in the document must be an operation or fragment"). -/
def isExecutableDefinitionNode (n : ASTNode) : Bool :=
  n.kind = .operationDefinitionK ∨ n.kind = .fragmentDefinitionK

/-- The `name.value` of a named (type-system) definition node, read by the
rule only on non-executable, non-schema definitions. -/
def ASTNode.defnName : ASTNode → String
  | .scalarTypeDefinition n => n
  | .objectTypeDefinition n => n
  | .interfaceTypeDefinition n => n
  | .unionTypeDefinition n => n
  | .enumTypeDefinition n => n
  | .inputObjectTypeDefinition n => n
  | .directiveDefinition n => n
  | .fragmentDefinition n _ _ _ => n
  | _ => ""

/-- A reported `GraphQLError`: message plus the AST node passed as its
location. -/
structure RuleError where
  message : String
  node : ASTNode

/-- The error constructed by the rule for a non-executable definition
`d`: `The <defName> definition is not executable.`, located at `d`. -/
def executableDefinitionsError (d : ASTNode) : RuleError :=
  { message :=
      "The " ++
        (if d.kind = .schemaDefinitionK ∨ d.kind = .schemaExtensionK then
           "schema"
         else "\"" ++ d.defnName ++ "\"") ++
        " definition is not executable.",
    node := d }

/-- `ExecutableDefinitionsRule`: the `Document` visitor iterates the
document's definitions and reports each non-executable one, naming it
`schema` for schema definition/extension nodes and by its quoted name
otherwise. -/
def ExecutableDefinitionsRule (doc : ASTNode) : List RuleError :=
  match doc with
  | .document defs =>
    defs.filterMap (fun d =>
      if isExecutableDefinitionNode d then none
      else some (executableDefinitionsError d))
  | _ => []

/-- The error message the claim prescribes for a non-executable
definition: the literal `schema` for schema definition/extension nodes and
the quoted definition name otherwise. -/
def claimedExecutableDefinitionsError (d : ASTNode) : RuleError :=
  { message :=
      "The " ++
        (match d with
         | .schemaDefinition _ => "schema"
         | .schemaExtension _ => "schema"
         | _ => "\"" ++ d.defnName ++ "\"") ++
        " definition is not executable.",
    node := d }

/-- C5: for every document, `ExecutableDefinitionsRule` reports exactly one
error per top-level definition that is neither an operation definition nor
a fragment definition, naming that definition (the literal `schema` for
schema-definition and schema-extension nodes, the quoted definition name
otherwise); hence it reports no error iff every top-level definition is an
operation or fragment definition. -/
theorem executableDefinitionsRule_reports_each_non_executable
    (defs : List ASTNode) :
    ExecutableDefinitionsRule (.document defs) =
      (defs.filter (fun d => ¬ isExecutableDefinitionNode d)).map
        claimedExecutableDefinitionsError ∧
    (ExecutableDefinitionsRule (.document defs)).length =
      (defs.filter (fun d => ¬ isExecutableDefinitionNode d)).length ∧
    (ExecutableDefinitionsRule (.document defs) = [] ↔
      ∀ d ∈ defs, isExecutableDefinitionNode d) := by
  have herr : ∀ d : ASTNode,
      executableDefinitionsError d = claimedExecutableDefinitionsError d := by
    intro d
    cases d <;>
      simp [executableDefinitionsError, claimedExecutableDefinitionsError,
        ASTNode.kind]
  have key : ExecutableDefinitionsRule (.document defs) =
      (defs.filter (fun d => ¬ isExecutableDefinitionNode d)).map
        claimedExecutableDefinitionsError := by
    induction defs with
    | nil => rfl
    | cons d rest ih =>
      by_cases hd : isExecutableDefinitionNode d
      · simpa [ExecutableDefinitionsRule, List.filterMap_cons,
          List.filter_cons, hd] using ih
      · simpa [ExecutableDefinitionsRule, List.filterMap_cons,
          List.filter_cons, hd, herr d] using ih
  refine ⟨key, by rw [key]; simp, ?_⟩
  rw [key]
  simp [List.filter_eq_nil_iff]

/-! ### VariablesAreInputTypesRule -/

/-- Modelled from the spec: `print` on AST type reference nodes
(`language/printer` is not under `src/`): the printed form of a named type
is its name, a list type is bracketed, a non-null type gets a trailing
bang. -/
def printTypeNode : TypeNode → String
  | .named n => n
  | .listType t => "[" ++ printTypeNode t ++ "]"
  | .nonNullType t => printTypeNode t ++ "!"

/-- An error reported by `VariablesAreInputTypesRule`: message plus the
type AST node passed as the error's location. -/
structure VarTypeError where
  message : String
  loc : TypeNode

/-- `VariablesAreInputTypesRule`: the `VariableDefinition` visitor; reports
when `typeFromAST` yields an existing type that is not an input type,
quoting the variable name and the printed AST type, located at the
variable definition's type node. -/
def VariablesAreInputTypesRule (schema : GSchema) (node : ASTNode) :
    List VarTypeError :=
  match node with
  | .variableDefinition varName tn _ _ =>
    match typeFromAST schema tn with
    | some t =>
      if isInputType schema t then []
      else
        [{ message := "Variable \"$" ++ varName ++
             "\" cannot be non-input type \"" ++ printTypeNode tn ++ "\".",
           loc := tn }]
    | none => []
  | _ => []

/-- C6: `VariablesAreInputTypesRule` reports an error on a variable
definition iff its AST type resolves via `typeFromAST` to an existing
schema type that is not an input type, and then it reports exactly one
error, with exactly the message
`Variable "$<name>" cannot be non-input type "<printed type>".` and with
the variable definition's type AST node as its location. -/
theorem variablesAreInputTypesRule_spec (schema : GSchema)
    (varName : String) (tn : TypeNode) (dv : Option ASTNode)
    (dirs : List ASTNode) :
    VariablesAreInputTypesRule schema
        (.variableDefinition varName tn dv dirs) =
      if ((typeFromAST schema tn).map (fun t => isInputType schema t)) =
          some false then
        [{ message := "Variable \"$" ++ varName ++
             "\" cannot be non-input type \"" ++ printTypeNode tn ++ "\".",
           loc := tn }]
      else [] := by
  rcases h : typeFromAST schema tn with _ | t
  · simp [VariablesAreInputTypesRule, h]
  · rcases hi : isInputType schema t with _ | _ <;>
      simp [VariablesAreInputTypesRule, h, hi]

/-! ### visitWithTypeInfo (part_005)

Modelled plumbing from the spec: the generic visitor primitive
(`language/visitor` is not under `src/`) exposes
`getVisitFn(visitor, kind, isLeaving)`, modelled as two kind-indexed
optional handler lookups, and the editing convention: a handler returning
`undefined` (here `Option.none`) continues normally, while any defined
result (`false`, `null`, `BREAK`, or a replacement node) is an edit
sentinel. `isNode` holds exactly for a replacement node. The wrapper itself
(`visitWithTypeInfo`) is embedded from the source; each wrapped call is
given a trace of the `TypeInfo` and user-visitor invocations it performs,
in call order. -/

/-- A defined result returned by a user visitor function. -/
inductive VisitResult where
  | vFalse
  | vNull
  | vBreak
  | vNode (node : ASTNode)

/-- `isNode(result)`: only a replacement node is a node. -/
def VisitResult.isNodeResult : VisitResult → Bool
  | .vNode _ => true
  | _ => false

/-- A user visitor: `getVisitFn(visitor, kind, false)` and
`getVisitFn(visitor, kind, true)` as kind-indexed optional handlers; a
handler returns `none` for JavaScript `undefined`. -/
structure UserVisitor where
  enterFn : NodeKind → Option (ASTNode → Option VisitResult)
  leaveFn : NodeKind → Option (ASTNode → Option VisitResult)

/-- Events recorded while a wrapped visitor call runs, in call order. -/
inductive TIEvent where
  | tiEnter (n : ASTNode)
  | tiLeave (n : ASTNode)
  | userEnter (n : ASTNode)
  | userLeave (n : ASTNode)

/-- The `enter` function of the visitor returned by
`visitWithTypeInfo(typeInfo, visitor)`: calls `typeInfo.enter(node)`, then
the user's enter function if any; if that returns a defined result, calls
`typeInfo.leave(node)` and, when the result is itself a node, re-enters
with `typeInfo.enter(result)`; returns the user result. The trace lists
every `TypeInfo`/user call in order. -/
def wrappedEnter (ti : TypeInfo) (v : UserVisitor) (n : ASTNode) :
    TypeInfo × Option VisitResult × List TIEvent :=
  let ti1 := ti.enter n
  match v.enterFn n.kind with
  | none => (ti1, none, [.tiEnter n])
  | some fn =>
    match fn n with
    | none => (ti1, none, [.tiEnter n, .userEnter n])
    | some r =>
      let ti2 := ti1.leave n
      match r with
      | .vNode m =>
        (ti2.enter m, some (.vNode m),
         [.tiEnter n, .userEnter n, .tiLeave n, .tiEnter m])
      | r' => (ti2, some r', [.tiEnter n, .userEnter n, .tiLeave n])

/-- The `leave` function of the visitor returned by `visitWithTypeInfo`:
calls the user's leave function first (if any), then always
`typeInfo.leave(node)`, and returns the user result. -/
def wrappedLeave (ti : TypeInfo) (v : UserVisitor) (n : ASTNode) :
    TypeInfo × Option VisitResult × List TIEvent :=
  match v.leaveFn n.kind with
  | none => (ti.leave n, none, [.tiLeave n])
  | some fn => (ti.leave n, fn n, [.userLeave n, .tiLeave n])

/-- C4: `visitWithTypeInfo` couples the visitor with `TypeInfo`: on enter
of `n`, `typeInfo.enter(n)` runs before the user's enter function; when
the user's enter returns a defined result (the edit sentinel),
`typeInfo.leave(n)` runs to compensate, and `typeInfo.enter` runs on the
result exactly when the result is itself an AST node; on leave of `n`, the
user's leave function runs first and `typeInfo.leave(n)` runs afterwards.
Stated over the call trace and the resulting `TypeInfo` state. -/
theorem visitWithTypeInfo_coupling (ti : TypeInfo) (v : UserVisitor)
    (n : ASTNode) (ef lf : ASTNode → Option VisitResult)
    (henter : v.enterFn n.kind = some ef)
    (hleave : v.leaveFn n.kind = some lf) :
    (wrappedEnter ti v n).2.2 =
      [.tiEnter n] ++ [.userEnter n] ++
        (match ef n with
         | none => []
         | some r =>
           [.tiLeave n] ++
             (match r with
              | .vNode m => [.tiEnter m]
              | _ => [])) ∧
    (wrappedEnter ti v n).1 =
      (match ef n with
       | none => ti.enter n
       | some (.vNode m) => ((ti.enter n).leave n).enter m
       | some _ => (ti.enter n).leave n) ∧
    (wrappedEnter ti v n).2.1 = ef n ∧
    (wrappedLeave ti v n).2.2 = [.userLeave n] ++ [.tiLeave n] ∧
    (wrappedLeave ti v n).1 = ti.leave n ∧
    (wrappedLeave ti v n).2.1 = lf n := by
  rcases h : ef n with _ | r
  · simp [wrappedEnter, wrappedLeave, henter, hleave, h]
  · cases r <;> simp [wrappedEnter, wrappedLeave, henter, hleave, h]

/-- Witness for C4 at a concrete input: a visitor whose enter edits a
`field` node into another node and whose leave returns `undefined`. -/
theorem visitWithTypeInfo_coupling_witness :
    (wrappedEnter (TypeInfo.mk0 ⟨[], none, none, none, []⟩)
        { enterFn := fun _ =>
            some (fun _ => some (.vNode (.var "x"))),
          leaveFn := fun _ => some (fun _ => none) }
        (.field none "f" [] [] none)).2.2 =
      [.tiEnter (.field none "f" [] [] none),
       .userEnter (.field none "f" [] [] none),
       .tiLeave (.field none "f" [] [] none),
       .tiEnter (.var "x")] ∧
    (wrappedLeave (TypeInfo.mk0 ⟨[], none, none, none, []⟩)
        { enterFn := fun _ =>
            some (fun _ => some (.vNode (.var "x"))),
          leaveFn := fun _ => some (fun _ => none) }
        (.field none "f" [] [] none)).2.2 =
      [.userLeave (.field none "f" [] [] none),
       .tiLeave (.field none "f" [] [] none)] := by
  have h := visitWithTypeInfo_coupling (TypeInfo.mk0 ⟨[], none, none, none, []⟩)
    { enterFn := fun _ => some (fun _ => some (.vNode (.var "x"))),
      leaveFn := fun _ => some (fun _ => none) }
    (.field none "f" [] [] none)
    (fun _ => some (.vNode (.var "x"))) (fun _ => none) rfl rfl
  exact ⟨h.1, h.2.2.2.1⟩

/-! ### ASTValidationContext.getFragmentSpreads -/

/-- The `selectionSet` property of a node, when the node kind has one. -/
def ASTNode.selectionSetOpt : ASTNode → Option ASTNode
  | .field _ _ _ _ ss => ss
  | .inlineFragment _ _ ss => some ss
  | .operationDefinition _ _ _ _ ss => some ss
  | .fragmentDefinition _ _ _ ss => some ss
  | _ => none

/-- One pass of the `for (const selection of set.selections)` loop of
`getFragmentSpreads`: returns the direct fragment spreads of the
selections in selection order, and the nested selection sets to visit, in
selection order. -/
def scanSelections : List ASTNode → List ASTNode × List ASTNode
  | [] => ([], [])
  | sel :: rest =>
    let p := scanSelections rest
    if sel.kind = .fragmentSpreadK then (sel :: p.1, p.2)
    else
      match sel.selectionSetOpt with
      | some ss => (p.1, ss :: p.2)
      | none => p

/-- `sizeOf` of a node's nested selection set is smaller than that of the
node carrying it. -/
theorem sizeOf_selectionSetOpt_lt (sel ss : ASTNode)
    (h : sel.selectionSetOpt = some ss) : sizeOf ss < sizeOf sel := by
  cases sel <;> simp [ASTNode.selectionSetOpt] at h <;> subst h <;>
    simp <;> omega

/-- The nested sets produced by one scan weigh less than the scanned
selection list. -/
theorem scanSelections_sizeOf (sels : List ASTNode) :
    ((scanSelections sels).2.map sizeOf).sum < sizeOf sels := by
  induction sels with
  | nil => simp [scanSelections]
  | cons sel rest ih =>
    have hsz : sizeOf (sel :: rest) = 1 + sizeOf sel + sizeOf rest := by
      simp
    by_cases hk : sel.kind = .fragmentSpreadK
    · simp only [scanSelections, hk, if_true]
      omega
    · simp only [scanSelections, hk, if_false]
      cases hss : sel.selectionSetOpt with
      | none => dsimp only; omega
      | some ss =>
        have := sizeOf_selectionSetOpt_lt sel ss hss
        dsimp only
        simp only [List.map_cons, List.sum_cons]
        omega

/-- The `selections` of a selection-set node. -/
def ASTNode.selectionsOf : ASTNode → List ASTNode
  | .selectionSet sels => sels
  | _ => []

/-- Selections of a set weigh less than the set node. -/
theorem sizeOf_selectionsOf_le (set : ASTNode) :
    sizeOf set.selectionsOf < sizeOf set + 1 := by
  cases set <;> simp [ASTNode.selectionsOf] <;> omega

/-- The worklist measure decrease of one `getFragmentSpreads` loop
iteration. -/
theorem fragmentSpreads_measure_lt (s : ASTNode) (rest : List ASTNode) :
    (((scanSelections s.selectionsOf).2.reverse ++ rest).map sizeOf).sum <
      ((s :: rest).map sizeOf).sum := by
  have h1 := scanSelections_sizeOf s.selectionsOf
  have h2 := sizeOf_selectionsOf_le s
  simp only [List.map_append, List.sum_append, List.map_cons, List.sum_cons,
    List.map_reverse, List.sum_reverse]
  omega

/-- The `while (setsToVisit.length !== 0)` loop of `getFragmentSpreads`.
The stack `setsToVisit` has its top at the head (the source pushes and
pops at the end of a JS array, so the sets discovered while scanning one
set are entered in reverse discovery order). -/
def fragmentSpreadsLoop : List ASTNode → List ASTNode
  | [] => []
  | s :: rest =>
    (scanSelections s.selectionsOf).1 ++
      fragmentSpreadsLoop ((scanSelections s.selectionsOf).2.reverse ++ rest)
termination_by l => (l.map sizeOf).sum
decreasing_by exact fragmentSpreads_measure_lt _ _

/-- `getFragmentSpreads(node)` (`ASTValidationContext`, memoization aside):
the iterative stack walk collecting every fragment spread nested under the
given selection set. -/
def getFragmentSpreads (node : ASTNode) : List ASTNode :=
  fragmentSpreadsLoop [node]

mutual

/-- Depth-first (preorder, left-to-right) sequence of the fragment-spread
nodes nested under a node's selection tree, as the claim's "depth-first
order of the selection tree" prescribes. -/
def dfsSpreads : ASTNode → List ASTNode
  | .selectionSet sels => dfsSpreadsList sels
  | _ => []
termination_by n => sizeOf n
decreasing_by simp <;> omega

/-- Depth-first spread sequence of a selection list, in selection order. -/
def dfsSpreadsList : List ASTNode → List ASTNode
  | [] => []
  | sel :: rest => dfsSel sel ++ dfsSpreadsList rest
termination_by sels => sizeOf sels
decreasing_by all_goals simp <;> omega

/-- Contribution of a single selection to the depth-first spread sequence:
the selection itself if it is a spread, else the spreads of its nested
selection set, if any. -/
def dfsSel (sel : ASTNode) : List ASTNode :=
  if sel.kind = .fragmentSpreadK then [sel]
  else
    match h : sel.selectionSetOpt with
    | some ss => dfsSpreads ss
    | none => []
termination_by sizeOf sel
decreasing_by
  have hlt := sizeOf_selectionSetOpt_lt sel ss h
  omega

end

/-- `dfsSel` on a fragment spread selection. -/
theorem dfsSel_of_spread {sel : ASTNode} (h : sel.kind = .fragmentSpreadK) :
    dfsSel sel = [sel] := by
  unfold dfsSel
  rw [if_pos h]

/-- `dfsSel` on a non-spread selection with a nested selection set. -/
theorem dfsSel_of_nested {sel ss : ASTNode}
    (hk : ¬ sel.kind = .fragmentSpreadK)
    (hss : sel.selectionSetOpt = some ss) : dfsSel sel = dfsSpreads ss := by
  unfold dfsSel
  rw [if_neg hk]
  split
  · rename_i ss' heq
    rw [hss] at heq
    injection heq with h'
    rw [h']
  · rename_i heq
    rw [hss] at heq
    cases heq

/-- `dfsSel` on a non-spread selection without a nested selection set. -/
theorem dfsSel_of_leaf {sel : ASTNode}
    (hk : ¬ sel.kind = .fragmentSpreadK)
    (hss : sel.selectionSetOpt = none) : dfsSel sel = [] := by
  unfold dfsSel
  rw [if_neg hk]
  split
  · rename_i ss' heq
    rw [hss] at heq
    cases heq
  · rfl

/-- Swapping the first block across the second in an append chain is a
permutation. -/
theorem perm_swap_append (a b c : List ASTNode) :
    (a ++ (b ++ c)).Perm (b ++ (a ++ c)) := by
  rw [← List.append_assoc, ← List.append_assoc]
  exact (List.perm_append_comm).append_right c

/-- The depth-first spread sequence of a selection list is a permutation
of one scan pass: the direct spreads followed by the depth-first spreads
of the nested sets. -/
theorem dfsSpreadsList_perm_scan (sels : List ASTNode) :
    (dfsSpreadsList sels).Perm
      ((scanSelections sels).1 ++
        (scanSelections sels).2.flatMap dfsSpreads) := by
  induction sels with
  | nil => simp [dfsSpreadsList, scanSelections]
  | cons sel rest ih =>
    by_cases hk : sel.kind = .fragmentSpreadK
    · rw [dfsSpreadsList, dfsSel_of_spread hk]
      simp only [scanSelections, hk, if_true, List.cons_append,
        List.singleton_append]
      exact ih.cons sel
    · cases hss : sel.selectionSetOpt with
      | none =>
        rw [dfsSpreadsList, dfsSel_of_leaf hk hss]
        simp only [scanSelections, hk, if_false, hss, List.nil_append]
        exact ih
      | some ss =>
        rw [dfsSpreadsList, dfsSel_of_nested hk hss]
        simp only [scanSelections, hk, if_false, hss, List.flatMap_cons]
        exact (ih.append_left _).trans (perm_swap_append _ _ _)

/-- `dfsSpreads` of any node is the depth-first spread sequence of its
selections. -/
theorem dfsSpreads_eq_selectionsOf (n : ASTNode) :
    dfsSpreads n = dfsSpreadsList n.selectionsOf := by
  cases n <;> simp [dfsSpreads, dfsSpreadsList, ASTNode.selectionsOf]

/-- The worklist walk of `getFragmentSpreads` visits, as a multiset,
exactly the depth-first spreads of the pending sets. -/
theorem fragmentSpreadsLoop_perm (ws : List ASTNode) :
    (fragmentSpreadsLoop ws).Perm (ws.flatMap dfsSpreads) := by
  induction ws using fragmentSpreadsLoop.induct with
  | case1 => simp [fragmentSpreadsLoop]
  | case2 s rest ih =>
    rw [fragmentSpreadsLoop, List.flatMap_cons]
    refine (ih.append_left _).trans ?_
    rw [List.flatMap_append]
    have hrev : ((scanSelections s.selectionsOf).2.reverse.flatMap
        dfsSpreads).Perm ((scanSelections s.selectionsOf).2.flatMap
          dfsSpreads) :=
      (List.reverse_perm _).flatMap_right dfsSpreads
    refine ((hrev.append_right _).append_left _).trans ?_
    rw [← List.append_assoc]
    have hmain := (dfsSpreadsList_perm_scan s.selectionsOf).symm
    rw [← dfsSpreads_eq_selectionsOf s] at hmain
    exact hmain.append_right _

/-- The memoization map `_fragmentSpreads`, keyed by node identity
(JS `Map` keys are object references; a `Nat` identity stands in). -/
def getFragmentSpreadsCached (cache : List (Nat × List ASTNode))
    (nodeId : Nat) (node : ASTNode) :
    List ASTNode × List (Nat × List ASTNode) :=
  match cache.find? (fun p => p.1 = nodeId) with
  | some p => (p.2, cache)
  | none => (getFragmentSpreads node, (nodeId, getFragmentSpreads node) :: cache)

/-- C9 (amended): `getFragmentSpreads(s)` returns exactly the
fragment-spread nodes nested anywhere under `s` — as a multiset it equals
the depth-first spread sequence, without following spreads into fragment
definitions — but in the worklist's own order (each processed set's direct
spreads in selection order, pending nested sets processed last-in
first-out), not left-to-right depth-first order; and a repeated call with
the same node returns the same cached sequence without changing the
cache. -/
theorem getFragmentSpreads_exact_and_cached (node : ASTNode) :
    (getFragmentSpreads node).Perm (dfsSpreads node) ∧
    (∀ cache nodeId,
      getFragmentSpreadsCached
          (getFragmentSpreadsCached cache nodeId node).2 nodeId node =
        ((getFragmentSpreadsCached cache nodeId node).1,
         (getFragmentSpreadsCached cache nodeId node).2)) := by
  constructor
  · have h := fragmentSpreadsLoop_perm [node]
    simpa [getFragmentSpreads] using h
  · intro cache nodeId
    cases hfind : cache.find? (fun p => p.1 = nodeId) with
    | some p => simp [getFragmentSpreadsCached, hfind]
    | none => simp [getFragmentSpreadsCached, hfind]

/-- A selection set on which the worklist order differs from depth-first
order: `{ a { ...X } ...Y }`. -/
def fragmentSpreadsOrderCounterexample : ASTNode :=
  .selectionSet
    [.field none "a" [] [] (some (.selectionSet [.fragmentSpread "X" []])),
     .fragmentSpread "Y" []]

/-- C9 (counterexample): on `{ a { ...X } ...Y }` the code returns
`[...Y, ...X]` while the depth-first order of the selection tree is
`[...X, ...Y]`, so the claimed depth-first ordering fails. -/
theorem getFragmentSpreads_not_depth_first :
    getFragmentSpreads fragmentSpreadsOrderCounterexample ≠
      dfsSpreads fragmentSpreadsOrderCounterexample := by
  have h1 : getFragmentSpreads fragmentSpreadsOrderCounterexample =
      [.fragmentSpread "Y" [], .fragmentSpread "X" []] := by
    simp [getFragmentSpreads, fragmentSpreadsLoop,
      fragmentSpreadsOrderCounterexample, scanSelections,
      ASTNode.selectionsOf, ASTNode.selectionSetOpt, ASTNode.kind]
  have h2 : dfsSpreads fragmentSpreadsOrderCounterexample =
      [.fragmentSpread "X" [], .fragmentSpread "Y" []] := by
    simp [dfsSpreads, dfsSpreadsList, dfsSel,
      fragmentSpreadsOrderCounterexample, ASTNode.selectionSetOpt,
      ASTNode.kind]
  rw [h1, h2]
  intro h
  simp at h

/-! ### ASTValidationContext.getFragment and
getRecursivelyReferencedFragments -/

/-- `getFragment(name)`: lookup in the `_fragments` index built by reducing
over the document's definitions; a later fragment definition with the same
name overwrites an earlier one. -/
def getFragment (doc : List ASTNode) (name : String) : Option ASTNode :=
  doc.foldl (fun acc d =>
    match d with
    | .fragmentDefinition n tc ds ss =>
      if n = name then some (.fragmentDefinition n tc ds ss) else acc
    | _ => acc) none

/-- The name of a fragment definition node. -/
def ASTNode.fragNameOf : ASTNode → String
  | .fragmentDefinition n _ _ _ => n
  | _ => ""

/-- The selection set of a fragment definition node. -/
def ASTNode.fragSelSet : ASTNode → ASTNode
  | .fragmentDefinition _ _ _ ss => ss
  | _ => .selectionSet []

/-- The name contributed by a definition to the fragment index. -/
def fragDefName : ASTNode → Option String
  | .fragmentDefinition n _ _ _ => some n
  | _ => none

/-- A successful `getFragment` lookup returns a fragment definition bearing
the looked-up name. -/
theorem getFragment_name {doc : List ASTNode} {name : String} {f : ASTNode}
    (h : getFragment doc name = some f) : f.fragNameOf = name := by
  rw [getFragment] at h
  suffices hgen : ∀ (acc : Option ASTNode),
      (∀ g, acc = some g → g.fragNameOf = name) →
      doc.foldl (fun acc d =>
        match d with
        | .fragmentDefinition n tc ds ss =>
          if n = name then some (.fragmentDefinition n tc ds ss) else acc
        | _ => acc) acc = some f → f.fragNameOf = name by
    exact hgen none (by intro g hg; cases hg) h
  clear h
  induction doc with
  | nil =>
    intro acc hacc h
    exact hacc f h
  | cons d rest ih =>
    intro acc hacc h
    rw [List.foldl_cons] at h
    refine ih _ ?_ h
    intro g hg
    cases d with
    | fragmentDefinition n tc ds ss =>
      by_cases hn : n = name
      · simp only [hn, if_pos rfl] at hg
        cases hg
        simp [ASTNode.fragNameOf, hn]
      · simp only [if_neg hn] at hg
        exact hacc g hg
    | _ => exact hacc g hg

/-- A successful `getFragment` lookup means the name is among the
document's fragment definition names. -/
theorem getFragment_mem_names {doc : List ASTNode} {name : String}
    {f : ASTNode} (h : getFragment doc name = some f) :
    name ∈ doc.filterMap fragDefName := by
  rw [getFragment] at h
  suffices hgen : ∀ (acc : Option ASTNode),
      (acc.isSome → name ∈ doc.filterMap fragDefName) →
      doc.foldl (fun acc d =>
        match d with
        | .fragmentDefinition n tc ds ss =>
          if n = name then some (.fragmentDefinition n tc ds ss) else acc
        | _ => acc) acc = some f → name ∈ doc.filterMap fragDefName by
    exact hgen none (by intro hs; cases hs) h
  clear h
  induction doc with
  | nil =>
    intro acc hacc h
    rw [List.foldl_nil] at h
    exact hacc (by rw [h]; rfl)
  | cons d rest ih =>
    intro acc hacc h
    rw [List.foldl_cons] at h
    have hstep : ∀ acc', (acc'.isSome → name ∈ rest.filterMap fragDefName) →
        rest.foldl (fun acc d =>
          match d with
          | .fragmentDefinition n tc ds ss =>
            if n = name then some (.fragmentDefinition n tc ds ss) else acc
          | _ => acc) acc' = some f →
        name ∈ rest.filterMap fragDefName := ih
    cases d with
    | fragmentDefinition n tc ds ss =>
      by_cases hn : n = name
      · simp [List.filterMap_cons, fragDefName, hn]
      · simp only [if_neg hn] at h
        have : name ∈ rest.filterMap fragDefName := by
          refine hstep acc (fun hs => ?_) h
          have := hacc hs
          simp only [List.filterMap_cons, fragDefName] at this
          simp only [List.mem_cons] at this
          rcases this with h' | h'
          · exact absurd h'.symm hn
          · exact h'
        simp only [List.filterMap_cons, fragDefName, List.mem_cons]
        exact Or.inr this
    | _ =>
      have : name ∈ rest.filterMap fragDefName := by
        refine hstep acc (fun hs => ?_) (by exact h)
        have h' := hacc hs
        simpa [List.filterMap_cons, fragDefName] using h'
      simpa [List.filterMap_cons, fragDefName] using this

/-- Number of document fragment names not yet collected: the termination
measure component for the `getRecursivelyReferencedFragments` loop. -/
def uncollected (doc : List ASTNode) (C : List String) : Nat :=
  (((doc.filterMap fragDefName).dedup).filter (fun n => n ∉ C)).length

/-- Marking one present, not-yet-excluded element shortens the filtered
list by exactly one on a duplicate-free list. -/
theorem filter_notin_cons_length {l C : List String} {a : String}
    (hnd : l.Nodup) (ha : a ∈ l) (haC : a ∉ C) :
    (l.filter (fun n => n ∉ a :: C)).length + 1 =
      (l.filter (fun n => n ∉ C)).length := by
  induction l with
  | nil => cases ha
  | cons x xs ih =>
    rw [List.nodup_cons] at hnd
    rcases List.mem_cons.mp ha with hax | hax
    · subst hax
      have hcong : xs.filter (fun n => n ∉ a :: C) =
          xs.filter (fun n => n ∉ C) := by
        refine List.filter_congr ?_
        intro n hn
        have hne : n ≠ a := fun e => hnd.1 (e ▸ hn)
        simp [hne]
      rw [List.filter_cons_of_neg (by simp),
        List.filter_cons_of_pos (by simpa using haC), hcong]
      simp
    · have hxa : x ≠ a := fun e => hnd.1 (e ▸ hax)
      have hrec := ih hnd.2 hax
      by_cases hxC : x ∈ C
      · rw [List.filter_cons_of_neg (by simp [hxC]),
          List.filter_cons_of_neg (by simp [hxC])]
        exact hrec
      · rw [List.filter_cons_of_pos (by simp [hxa, hxC]),
          List.filter_cons_of_pos (by simpa using hxC)]
        simp only [List.length_cons]
        omega

/-- Excluding one more name never lengthens the filtered list. -/
theorem filter_notin_cons_length_le (l C : List String) (a : String) :
    (l.filter (fun n => n ∉ a :: C)).length ≤
      (l.filter (fun n => n ∉ C)).length := by
  induction l with
  | nil => simp
  | cons x xs ih =>
    by_cases hx : x ∈ a :: C
    · rw [List.filter_cons_of_neg (by simp [hx])]
      by_cases hx' : x ∈ C
      · rw [List.filter_cons_of_neg (by simp [hx'])]
        exact ih
      · rw [List.filter_cons_of_pos (by simpa using hx')]
        simp only [List.length_cons]
        omega
    · have hx' : x ∉ C := fun hc => hx (List.mem_cons_of_mem a hc)
      rw [List.filter_cons_of_pos (by simpa using hx),
        List.filter_cons_of_pos (by simpa using hx')]
      simp only [List.length_cons]
      omega

/-- Growing the collected set never increases `uncollected`. -/
theorem uncollected_cons_le (doc : List ASTNode) (C : List String)
    (a : String) : uncollected doc (a :: C) ≤ uncollected doc C :=
  filter_notin_cons_length_le _ _ _

/-- Collecting a name that belongs to the document's fragment index and is
new decreases `uncollected` by exactly one. -/
theorem uncollected_cons_of_mem {doc : List ASTNode} {C : List String}
    {a : String} (hmem : a ∈ doc.filterMap fragDefName) (hnC : a ∉ C) :
    uncollected doc (a :: C) + 1 = uncollected doc C :=
  filter_notin_cons_length (List.nodup_dedup _)
    (List.mem_dedup.mpr hmem) hnC

/-- The loop state of `getRecursivelyReferencedFragments`: the
`nodesToVisit` stack (top at head), the `collectedNames` set, and the
`fragments` accumulator. -/
def RRFState : Type := List ASTNode × List String × List ASTNode

/-- Processing one spread of the inner
`for (const spread of this.getFragmentSpreads(node))` loop: a new fragment
name is marked collected; if the fragment exists it is appended to the
result and its selection set is pushed onto the stack. -/
def collectStep (doc : List ASTNode) (st : RRFState) (sp : ASTNode) :
    RRFState :=
  match sp with
  | .fragmentSpread name _ =>
    if name ∈ st.2.1 then st
    else
      match getFragment doc name with
      | some f => (f.fragSelSet :: st.1, name :: st.2.1, st.2.2 ++ [f])
      | none => (st.1, name :: st.2.1, st.2.2)
  | _ => st

/-- The inner loop over one set's spreads. -/
def collectSpreads (doc : List ASTNode) (sps : List ASTNode)
    (st : RRFState) : RRFState :=
  sps.foldl (collectStep doc) st

/-- One `collectStep` never increases the loop measure. -/
theorem collectStep_measure_le (doc : List ASTNode) (st : RRFState)
    (sp : ASTNode) :
    (collectStep doc st sp).1.length +
        uncollected doc (collectStep doc st sp).2.1 ≤
      st.1.length + uncollected doc st.2.1 := by
  obtain ⟨W, C, A⟩ := st
  cases sp with
  | fragmentSpread name ds =>
    by_cases hC : name ∈ C
    · simp [collectStep, hC]
    · cases hf : getFragment doc name with
      | some f =>
        have hm := uncollected_cons_of_mem (getFragment_mem_names hf) hC
        simp only [collectStep, hC, if_false, hf, List.length_cons]
        simp only [uncollected] at hm ⊢
        omega
      | none =>
        have hle := uncollected_cons_le doc C name
        simp only [collectStep, hC, if_false, hf]
        simp only [uncollected] at hle ⊢
        omega
  | _ => simp [collectStep]

/-- The inner loop never increases the loop measure. -/
theorem collectSpreads_measure_le (doc : List ASTNode)
    (sps : List ASTNode) (st : RRFState) :
    (collectSpreads doc sps st).1.length +
        uncollected doc (collectSpreads doc sps st).2.1 ≤
      st.1.length + uncollected doc st.2.1 := by
  induction sps generalizing st with
  | nil => simp [collectSpreads]
  | cons sp rest ih =>
    have h1 := collectStep_measure_le doc st sp
    have h2 := ih (collectStep doc st sp)
    simp only [collectSpreads, List.foldl_cons] at h2 ⊢
    omega

/-- The loop measure strictly decreases across one outer iteration. -/
theorem rrf_measure_lt (doc : List ASTNode) (s : ASTNode)
    (rest : List ASTNode) (C : List String) (A : List ASTNode) :
    (collectSpreads doc (getFragmentSpreads s) (rest, C, A)).1.length +
        uncollected doc
          (collectSpreads doc (getFragmentSpreads s) (rest, C, A)).2.1 <
      (s :: rest).length + uncollected doc C := by
  have h := collectSpreads_measure_le doc (getFragmentSpreads s) (rest, C, A)
  simp only [List.length_cons] at h ⊢
  omega

/-- The `while (nodesToVisit.length !== 0)` loop of
`getRecursivelyReferencedFragments`: pop a selection set, process its
spreads, continue. -/
def rrfLoop (doc : List ASTNode) : List ASTNode → List String →
    List ASTNode → List ASTNode
  | [], _, A => A
  | s :: rest, C, A =>
    rrfLoop doc (collectSpreads doc (getFragmentSpreads s) (rest, C, A)).1
      (collectSpreads doc (getFragmentSpreads s) (rest, C, A)).2.1
      (collectSpreads doc (getFragmentSpreads s) (rest, C, A)).2.2
termination_by W C _ => W.length + uncollected doc C
decreasing_by exact rrf_measure_lt doc s rest C A

/-- `getRecursivelyReferencedFragments(operation)` (memoization aside):
walk from the operation's selection set. -/
def getRecursivelyReferencedFragments (doc : List ASTNode)
    (operation : ASTNode) : List ASTNode :=
  rrfLoop doc [(operation.selectionSetOpt).getD (.selectionSet [])] [] []

/-- A fragment spread of the given name occurs somewhere under the
selection set `s` (spelled via the depth-first spread sequence, so it is
independent of the worklist algorithm). -/
def SpreadUnder (s : ASTNode) (name : String) : Prop :=
  ∃ ds, ASTNode.fragmentSpread name ds ∈ dfsSpreads s

/-- Transitive reachability of a fragment name from a root selection set:
either a spread directly under the root, or a spread under the selection
set of an already-reachable fragment that exists in the document. -/
inductive ReachableFragName (doc : List ASTNode) (root : ASTNode) :
    String → Prop where
  | direct {n : String} : SpreadUnder root n → ReachableFragName doc root n
  | step {m n : String} {f : ASTNode} : ReachableFragName doc root m →
      getFragment doc m = some f → SpreadUnder f.fragSelSet n →
      ReachableFragName doc root n

/-- Membership in the worklist's spread sequence agrees with membership in
the depth-first spread sequence. -/
theorem getFragmentSpreads_mem_iff (s x : ASTNode) :
    x ∈ getFragmentSpreads s ↔ x ∈ dfsSpreads s := by
  have h := fragmentSpreadsLoop_perm [s]
  rw [getFragmentSpreads]
  constructor
  · intro hx
    have := h.mem_iff.mp hx
    simpa using this
  · intro hx
    exact h.mem_iff.mpr (by simpa using hx)

/-- Invariant transfer across the inner spread loop: monotonicity of the
collected names and of the stack, completeness of name collection,
soundness of the stack and of the collected names, pushing of newly
collected fragments' selection sets, the characterization of the
accumulated fragments, and uniqueness of their names. -/
theorem collectSpreads_inv (doc : List ASTNode) (root : ASTNode)
    (sps : List ASTNode) :
    ∀ (W : List ASTNode) (C : List String) (A : List ASTNode),
    (∀ name ds, ASTNode.fragmentSpread name ds ∈ sps →
        ReachableFragName doc root name) →
    (∀ s ∈ W, s = root ∨ ∃ m f, m ∈ C ∧ getFragment doc m = some f ∧
        f.fragSelSet = s) →
    (∀ n ∈ C, ReachableFragName doc root n) →
    (∀ f, f ∈ A ↔ ∃ n, n ∈ C ∧ getFragment doc n = some f) →
    ((A.map ASTNode.fragNameOf).Nodup) →
    (∀ n ∈ C, n ∈ (collectSpreads doc sps (W, C, A)).2.1) ∧
    (∀ s ∈ W, s ∈ (collectSpreads doc sps (W, C, A)).1) ∧
    (∀ name ds, ASTNode.fragmentSpread name ds ∈ sps →
        name ∈ (collectSpreads doc sps (W, C, A)).2.1) ∧
    (∀ s ∈ (collectSpreads doc sps (W, C, A)).1, s = root ∨
        ∃ m f, m ∈ (collectSpreads doc sps (W, C, A)).2.1 ∧
          getFragment doc m = some f ∧ f.fragSelSet = s) ∧
    (∀ n ∈ (collectSpreads doc sps (W, C, A)).2.1,
        ReachableFragName doc root n) ∧
    (∀ m ∈ (collectSpreads doc sps (W, C, A)).2.1, m ∉ C →
        ∀ f, getFragment doc m = some f →
          f.fragSelSet ∈ (collectSpreads doc sps (W, C, A)).1) ∧
    (∀ f, f ∈ (collectSpreads doc sps (W, C, A)).2.2 ↔
        ∃ n, n ∈ (collectSpreads doc sps (W, C, A)).2.1 ∧
          getFragment doc n = some f) ∧
    (((collectSpreads doc sps (W, C, A)).2.2.map ASTNode.fragNameOf).Nodup) := by
  induction sps with
  | nil =>
    intro W C A hsps hW hC hA hAnd
    simp only [collectSpreads, List.foldl_nil]
    refine ⟨fun n hn => hn, fun s hs => hs, by simp, hW, hC,
      fun m hm hnm f hf => absurd hm hnm, hA, hAnd⟩
  | cons sp rest ih =>
    intro W C A hsps hW hC hA hAnd
    cases sp with
    | fragmentSpread name ds =>
      have hsps' : ∀ n nds, ASTNode.fragmentSpread n nds ∈ rest →
          ReachableFragName doc root n :=
        fun n nds hn => hsps n nds (List.mem_cons_of_mem _ hn)
      by_cases hnc : name ∈ C
      · have hstep : collectStep doc (W, C, A) (.fragmentSpread name ds) =
            (W, C, A) := by
          simp [collectStep, hnc]
        simp only [collectSpreads, List.foldl_cons, hstep]
        obtain ⟨c1, c2, c3, c4, c5, c6, c7, c8⟩ :=
          ih W C A hsps' hW hC hA hAnd
        simp only [collectSpreads] at c1 c2 c3 c4 c5 c6 c7 c8
        refine ⟨c1, c2, ?_, c4, c5, c6, c7, c8⟩
        intro n nds hmem
        rcases List.mem_cons.mp hmem with h | h
        · injection h with h1 h2
          subst h1
          exact c1 n hnc
        · exact c3 n nds h
      · have hreach : ReachableFragName doc root name :=
          hsps name ds (List.mem_cons_self _ _)
        cases hf : getFragment doc name with
        | some f =>
          have hstep : collectStep doc (W, C, A) (.fragmentSpread name ds) =
              (f.fragSelSet :: W, name :: C, A ++ [f]) := by
            simp [collectStep, hnc, hf]
          simp only [collectSpreads, List.foldl_cons, hstep]
          have hW1 : ∀ s ∈ f.fragSelSet :: W, s = root ∨
              ∃ m g, m ∈ name :: C ∧ getFragment doc m = some g ∧
                g.fragSelSet = s := by
            intro s hs
            rcases List.mem_cons.mp hs with h | h
            · exact Or.inr ⟨name, f, List.mem_cons_self _ _, hf, h.symm⟩
            · rcases hW s h with h' | ⟨m, g, hm, hg, hgs⟩
              · exact Or.inl h'
              · exact Or.inr ⟨m, g, List.mem_cons_of_mem _ hm, hg, hgs⟩
          have hC1 : ∀ n ∈ name :: C, ReachableFragName doc root n := by
            intro n hn
            rcases List.mem_cons.mp hn with h | h
            · exact h ▸ hreach
            · exact hC n h
          have hA1 : ∀ g, g ∈ A ++ [f] ↔
              ∃ n, n ∈ name :: C ∧ getFragment doc n = some g := by
            intro g
            constructor
            · intro hg
              rcases List.mem_append.mp hg with h | h
              · obtain ⟨n, hn, hgn⟩ := (hA g).mp h
                exact ⟨n, List.mem_cons_of_mem _ hn, hgn⟩
              · have : g = f := by simpa using h
                exact ⟨name, List.mem_cons_self _ _, this ▸ hf⟩
            · intro ⟨n, hn, hgn⟩
              rcases List.mem_cons.mp hn with h | h
              · subst h
                have hgf : g = f := by
                  rw [hf] at hgn
                  injection hgn with h'
                  exact h'.symm
                simp [hgf]
              · exact List.mem_append.mpr (Or.inl ((hA g).mpr ⟨n, h, hgn⟩))
          have hAnd1 : ((A ++ [f]).map ASTNode.fragNameOf).Nodup := by
            rw [List.map_append]
            have hfname : f.fragNameOf = name := getFragment_name hf
            have hnotin : name ∉ A.map ASTNode.fragNameOf := by
              intro hmem
              obtain ⟨g, hg, hgname⟩ := List.mem_map.mp hmem
              obtain ⟨n', hn', hgn'⟩ := (hA g).mp hg
              have : g.fragNameOf = n' := getFragment_name hgn'
              rw [this] at hgname
              exact hnc (hgname ▸ hn')
            simp [List.nodup_append, hAnd, hfname, hnotin]
          obtain ⟨c1, c2, c3, c4, c5, c6, c7, c8⟩ :=
            ih (f.fragSelSet :: W) (name :: C) (A ++ [f]) hsps' hW1 hC1
              hA1 hAnd1
          simp only [collectSpreads] at c1 c2 c3 c4 c5 c6 c7 c8
          refine ⟨?_, ?_, ?_, c4, c5, ?_, c7, c8⟩
          · intro n hn
            exact c1 n (List.mem_cons_of_mem _ hn)
          · intro s hs
            exact c2 s (List.mem_cons_of_mem _ hs)
          · intro n nds hmem
            rcases List.mem_cons.mp hmem with h | h
            · injection h with h1 h2
              subst h1
              exact c1 n (List.mem_cons_self _ _)
            · exact c3 n nds h
          · intro m hm hmC g hg
            by_cases hmn : m = name
            · subst hmn
              have hgf : g = f := by
                rw [hf] at hg
                injection hg with h'
                exact h'.symm
              subst hgf
              exact c2 g.fragSelSet (List.mem_cons_self _ _)
            · have hm1 : m ∉ name :: C := by
                intro h
                rcases List.mem_cons.mp h with h' | h'
                · exact hmn h'
                · exact hmC h'
              exact c6 m hm hm1 g hg
        | none =>
          have hstep : collectStep doc (W, C, A) (.fragmentSpread name ds) =
              (W, name :: C, A) := by
            simp [collectStep, hnc, hf]
          simp only [collectSpreads, List.foldl_cons, hstep]
          have hW1 : ∀ s ∈ W, s = root ∨
              ∃ m g, m ∈ name :: C ∧ getFragment doc m = some g ∧
                g.fragSelSet = s := by
            intro s hs
            rcases hW s hs with h' | ⟨m, g, hm, hg, hgs⟩
            · exact Or.inl h'
            · exact Or.inr ⟨m, g, List.mem_cons_of_mem _ hm, hg, hgs⟩
          have hC1 : ∀ n ∈ name :: C, ReachableFragName doc root n := by
            intro n hn
            rcases List.mem_cons.mp hn with h | h
            · exact h ▸ hreach
            · exact hC n h
          have hA1 : ∀ g, g ∈ A ↔
              ∃ n, n ∈ name :: C ∧ getFragment doc n = some g := by
            intro g
            constructor
            · intro hg
              obtain ⟨n, hn, hgn⟩ := (hA g).mp hg
              exact ⟨n, List.mem_cons_of_mem _ hn, hgn⟩
            · intro ⟨n, hn, hgn⟩
              rcases List.mem_cons.mp hn with h | h
              · subst h
                rw [hf] at hgn
                cases hgn
              · exact (hA g).mpr ⟨n, h, hgn⟩
          obtain ⟨c1, c2, c3, c4, c5, c6, c7, c8⟩ :=
            ih W (name :: C) A hsps' hW1 hC1 hA1 hAnd
          simp only [collectSpreads] at c1 c2 c3 c4 c5 c6 c7 c8
          refine ⟨?_, c2, ?_, c4, c5, ?_, c7, c8⟩
          · intro n hn
            exact c1 n (List.mem_cons_of_mem _ hn)
          · intro n nds hmem
            rcases List.mem_cons.mp hmem with h | h
            · injection h with h1 h2
              subst h1
              exact c1 n (List.mem_cons_self _ _)
            · exact c3 n nds h
          · intro m hm hmC g hg
            by_cases hmn : m = name
            · subst hmn
              rw [hf] at hg
              cases hg
            · have hm1 : m ∉ name :: C := by
                intro h
                rcases List.mem_cons.mp h with h' | h'
                · exact hmn h'
                · exact hmC h'
              exact c6 m hm hm1 g hg
    | _ =>
      obtain ⟨c1, c2, c3, c4, c5, c6, c7, c8⟩ :=
        ih W C A (fun n nds hn => hsps n nds (List.mem_cons_of_mem _ hn))
          hW hC hA hAnd
      refine ⟨c1, c2, ?_, c4, c5, c6, c7, c8⟩
      intro n nds hmem
      rcases List.mem_cons.mp hmem with h | h
      · simp at h
      · exact c3 n nds h

/-- Partial correctness of the worklist loop: from a state whose stack,
collected names and accumulator are sound and suitably closed, the loop
returns exactly the fragments of reachable names, each name occurring
once. -/
theorem rrfLoop_spec (doc : List ASTNode) (root : ASTNode)
    (W : List ASTNode) (C : List String) (A : List ASTNode) :
    (∀ s ∈ W, s = root ∨ ∃ m f, m ∈ C ∧ getFragment doc m = some f ∧
        f.fragSelSet = s) →
    (∀ n ∈ C, ReachableFragName doc root n) →
    (∀ m ∈ C, ∀ f, getFragment doc m = some f →
        f.fragSelSet ∈ W ∨ ∀ n, SpreadUnder f.fragSelSet n → n ∈ C) →
    (root ∈ W ∨ ∀ n, SpreadUnder root n → n ∈ C) →
    (∀ f, f ∈ A ↔ ∃ n, n ∈ C ∧ getFragment doc n = some f) →
    ((A.map ASTNode.fragNameOf).Nodup) →
    (∀ f, f ∈ rrfLoop doc W C A ↔
        ∃ n, ReachableFragName doc root n ∧ getFragment doc n = some f) ∧
    ((rrfLoop doc W C A).map ASTNode.fragNameOf).Nodup := by
  induction W, C, A using rrfLoop.induct doc with
  | case1 C A =>
    intro hW hC hclo hroot hA hAnd
    rw [rrfLoop]
    have hmem : ∀ n', ReachableFragName doc root n' → n' ∈ C := by
      intro n' hr
      induction hr with
      | direct hsp =>
        rcases hroot with h | h
        · cases h
        · exact h _ hsp
      | step hm hfrag hsp ihm =>
        rcases hclo _ ihm _ hfrag with h | h
        · cases h
        · exact h _ hsp
    refine ⟨fun f => ⟨?_, ?_⟩, hAnd⟩
    · intro hf
      obtain ⟨n, hn, hgn⟩ := (hA f).mp hf
      exact ⟨n, hC n hn, hgn⟩
    · rintro ⟨n, hreach, hgn⟩
      exact (hA f).mpr ⟨n, hmem n hreach, hgn⟩
  | case2 s rest C A ih =>
    intro hW hC hclo hroot hA hAnd
    have hsps : ∀ name ds,
        ASTNode.fragmentSpread name ds ∈ getFragmentSpreads s →
          ReachableFragName doc root name := by
      intro name ds hmem
      have hdfs : ASTNode.fragmentSpread name ds ∈ dfsSpreads s :=
        (getFragmentSpreads_mem_iff s _).mp hmem
      have hsu : SpreadUnder s name := ⟨ds, hdfs⟩
      rcases hW s (List.mem_cons_self _ _) with h | ⟨m, f, hm, hf, hfs⟩
      · rw [h] at hsu
        exact ReachableFragName.direct hsu
      · rw [← hfs] at hsu
        exact ReachableFragName.step (hC m hm) hf hsu
    obtain ⟨c1, c2, c3, c4, c5, c6, c7, c8⟩ :=
      collectSpreads_inv doc root (getFragmentSpreads s) rest C A hsps
        (fun s' hs' => hW s' (List.mem_cons_of_mem _ hs')) hC hA hAnd
    have hprocessed : ∀ n, SpreadUnder s n →
        n ∈ (collectSpreads doc (getFragmentSpreads s) (rest, C, A)).2.1 := by
      intro n hn
      obtain ⟨ds, hds⟩ := hn
      exact c3 n ds ((getFragmentSpreads_mem_iff s _).mpr hds)
    have hclo' : ∀ m ∈ (collectSpreads doc (getFragmentSpreads s)
          (rest, C, A)).2.1, ∀ f, getFragment doc m = some f →
        f.fragSelSet ∈ (collectSpreads doc (getFragmentSpreads s)
            (rest, C, A)).1 ∨
          ∀ n, SpreadUnder f.fragSelSet n →
            n ∈ (collectSpreads doc (getFragmentSpreads s)
              (rest, C, A)).2.1 := by
      intro m hm f hf
      by_cases hmC : m ∈ C
      · rcases hclo m hmC f hf with hin | hsub
        · rcases List.mem_cons.mp hin with hs | hrest
          · right
            intro n hn
            rw [hs] at hn
            exact hprocessed n hn
          · exact Or.inl (c2 _ hrest)
        · right
          intro n hn
          exact c1 n (hsub n hn)
      · exact Or.inl (c6 m hm hmC f hf)
    have hroot' : root ∈ (collectSpreads doc (getFragmentSpreads s)
          (rest, C, A)).1 ∨
        ∀ n, SpreadUnder root n →
          n ∈ (collectSpreads doc (getFragmentSpreads s)
            (rest, C, A)).2.1 := by
      rcases hroot with hin | hsub
      · rcases List.mem_cons.mp hin with hs | hrest
        · right
          intro n hn
          rw [hs] at hn
          exact hprocessed n hn
        · exact Or.inl (c2 _ hrest)
      · right
        intro n hn
        exact c1 n (hsub n hn)
    rw [rrfLoop]
    exact ih c4 c5 hclo' hroot' c7 c8

/-- C8: for every document and every operation definition,
`getRecursivelyReferencedFragments(operation)` returns exactly the
document's fragment definitions transitively reachable from the
operation's selection set through fragment spreads, each fragment exactly
once (its names are duplicate-free); the function is total in this
embedding, so it terminates and returns this set even when fragments
spread one another cyclically. -/
theorem getRecursivelyReferencedFragments_spec (doc : List ASTNode)
    (k : OpKind) (nm : Option String) (vds dirs : List ASTNode)
    (ss : ASTNode) :
    (∀ f, f ∈ getRecursivelyReferencedFragments doc
        (.operationDefinition k nm vds dirs ss) ↔
      ∃ n, ReachableFragName doc ss n ∧ getFragment doc n = some f) ∧
    ((getRecursivelyReferencedFragments doc
        (.operationDefinition k nm vds dirs ss)).map
          ASTNode.fragNameOf).Nodup := by
  have hsel : (ASTNode.operationDefinition k nm vds dirs
      ss).selectionSetOpt = some ss := rfl
  rw [getRecursivelyReferencedFragments, hsel, Option.getD_some]
  refine rrfLoop_spec doc ss [ss] [] [] ?_ ?_ ?_ ?_ ?_ ?_
  · intro s' hs'
    simp only [List.mem_singleton] at hs'
    exact Or.inl hs'
  · intro n hn
    cases hn
  · intro m hm
    cases hm
  · exact Or.inl (List.mem_singleton.mpr rfl)
  · intro f
    constructor
    · intro h
      cases h
    · rintro ⟨n, hn, _⟩
      cases hn
  · simp

/-! ### ValidationContext.getVariableUsages

The generic `visit` primitive (`language/visitor` is not under `src/`) is
modelled from the spec as the standard recursive walk over the visitor
document keys, composed here with `visitWithTypeInfo` and the specific
visitor of `getVariableUsages`: `VariableDefinition: () => false` (the
wrapped enter runs `typeInfo.enter`, sees the defined result `false`,
runs the compensating `typeInfo.leave`, and the subtree is skipped) and
`Variable(variable)` recording `{node, type, defaultValue}` from the
TypeInfo. -/

/-- A `VariableUsage` record. -/
structure VariableUsage where
  node : ASTNode
  type : Option GType
  defaultValue : Option ASTNode

/-- The child nodes of a node, in the visitor's document-key order (name
and type sub-nodes omitted: no embedded visitor dispatches on them). -/
def childNodes : ASTNode → List ASTNode
  | .document defs => defs
  | .operationDefinition _ _ vds dirs ss => vds ++ dirs ++ [ss]
  | .variableDefinition _ _ dv dirs => dv.toList ++ dirs
  | .selectionSet sels => sels
  | .field _ _ args dirs ss => args ++ dirs ++ ss.toList
  | .argument _ v => [v]
  | .fragmentSpread _ dirs => dirs
  | .inlineFragment _ dirs ss => dirs ++ [ss]
  | .fragmentDefinition _ _ dirs ss => dirs ++ [ss]
  | .directive _ args => args
  | .listValue vs => vs
  | .objectValue fs => fs
  | .objectField _ v => [v]
  | .schemaDefinition dirs => dirs
  | .schemaExtension dirs => dirs
  | _ => []

/-- The elements of a list weigh strictly less than the list. -/
theorem list_sizes_lt (l : List ASTNode) : (l.map sizeOf).sum < sizeOf l := by
  induction l with
  | nil => simp
  | cons x xs ih =>
    simp only [List.map_cons, List.sum_cons]
    simp
    omega

/-- A node's children weigh strictly less than the node. -/
theorem childNodes_sizes_lt (n : ASTNode) :
    ((childNodes n).map sizeOf).sum < sizeOf n := by
  cases n with
  | operationDefinition k nm vds dirs ss =>
    have h1 := list_sizes_lt vds
    have h2 := list_sizes_lt dirs
    simp [childNodes]
    omega
  | variableDefinition vn tn dv dirs =>
    have h2 := list_sizes_lt dirs
    cases dv with
    | none => simp [childNodes] <;> omega
    | some d => simp [childNodes] <;> omega
  | field al nm args dirs ss =>
    have h1 := list_sizes_lt args
    have h2 := list_sizes_lt dirs
    cases ss with
    | none => simp [childNodes] <;> omega
    | some s => simp [childNodes] <;> omega
  | inlineFragment tc dirs ss =>
    have h2 := list_sizes_lt dirs
    simp [childNodes]
    omega
  | fragmentDefinition fn tc dirs ss =>
    have h2 := list_sizes_lt dirs
    simp [childNodes]
    omega
  | document defs => have := list_sizes_lt defs; simp [childNodes]; omega
  | selectionSet sels => have := list_sizes_lt sels; simp [childNodes]; omega
  | argument nm v => simp [childNodes] <;> omega
  | fragmentSpread nm dirs =>
    have := list_sizes_lt dirs; simp [childNodes]; omega
  | directive nm args => have := list_sizes_lt args; simp [childNodes]; omega
  | listValue vs => have := list_sizes_lt vs; simp [childNodes]; omega
  | objectValue fs => have := list_sizes_lt fs; simp [childNodes]; omega
  | objectField nm v => simp [childNodes] <;> omega
  | schemaDefinition dirs =>
    have := list_sizes_lt dirs; simp [childNodes]; omega
  | schemaExtension dirs =>
    have := list_sizes_lt dirs; simp [childNodes]; omega
  | var vn => simp [childNodes]
  | intValue v => simp [childNodes]
  | floatValue v => simp [childNodes]
  | stringValue v => simp [childNodes]
  | booleanValue v => simp [childNodes]
  | nullValue => simp [childNodes]
  | enumValue v => simp [childNodes]
  | scalarTypeDefinition d => simp [childNodes]
  | objectTypeDefinition d => simp [childNodes]
  | interfaceTypeDefinition d => simp [childNodes]
  | unionTypeDefinition d => simp [childNodes]
  | enumTypeDefinition d => simp [childNodes]
  | inputObjectTypeDefinition d => simp [childNodes]
  | directiveDefinition d => simp [childNodes]

/-- Every node weighs at least one. -/
theorem astNode_sizeOf_pos (n : ASTNode) : 0 < sizeOf n := by
  cases n <;> simp <;> omega

/-- The measure decrease for visiting a node's children. -/
theorem childNodes_measure_lt (n : ASTNode) (rest : List ASTNode) :
    ((childNodes n).map sizeOf).sum < ((n :: rest).map sizeOf).sum := by
  have h1 := childNodes_sizes_lt n
  simp only [List.map_cons, List.sum_cons]
  omega

/-- The measure decrease for visiting the remaining sibling nodes. -/
theorem rest_measure_lt (n : ASTNode) (rest : List ASTNode) :
    (rest.map sizeOf).sum < ((n :: rest).map sizeOf).sum := by
  have h1 := astNode_sizeOf_pos n
  simp only [List.map_cons, List.sum_cons]
  omega

/-- The walk of `visit(node, visitWithTypeInfo(typeInfo, visitor))` for the
`getVariableUsages` visitor, over a list of sibling nodes: a
`VariableDefinition` node is entered and immediately compensated
(`typeInfo.leave`) because the user enter returns `false`, and its subtree
is skipped; a `Variable` node records a usage from the TypeInfo after
`typeInfo.enter`; every other node is entered, its children visited in
document-key order, and left. -/
def vuList : TypeInfo → List ASTNode → TypeInfo × List VariableUsage
  | ti, [] => (ti, [])
  | ti, n :: rest =>
    if n.kind = .variableDefinitionK then
      let ti2 := (ti.enter n).leave n
      let pr := vuList ti2 rest
      (pr.1, pr.2)
    else
      let ti1 := ti.enter n
      let us :=
        if n.kind = .variableK then
          [{ node := n, type := ti1.getInputType,
             defaultValue := ti1.getDefaultValue }]
        else []
      let pc := vuList ti1 (childNodes n)
      let ti2 := pc.1.leave n
      let pr := vuList ti2 rest
      (pr.1, us ++ pc.2 ++ pr.2)
termination_by _ l => (l.map sizeOf).sum
decreasing_by
  all_goals first
    | exact childNodes_measure_lt _ _
    | exact rest_measure_lt _ _

/-- The Variable leaves under a list of sibling nodes that lie outside
every `VariableDefinition` subtree, in document order: the claim's
characterization of which nodes get a usage record. -/
def varLeavesList : List ASTNode → List ASTNode
  | [] => []
  | n :: rest =>
    (if n.kind = .variableDefinitionK then []
     else (if n.kind = .variableK then [n] else []) ++
       varLeavesList (childNodes n)) ++ varLeavesList rest
termination_by l => (l.map sizeOf).sum
decreasing_by
  all_goals first
    | exact childNodes_measure_lt _ _
    | exact rest_measure_lt _ _

/-- `getVariableUsages(node)` (`ValidationContext`, memoization aside):
visit the node with a fresh `TypeInfo` over the context's schema,
recording `{node, type, defaultValue}` at each Variable leaf. -/
def getVariableUsages (schema : GSchema) (node : ASTNode) :
    List VariableUsage :=
  (vuList (TypeInfo.mk0 schema) [node]).2

/-- The memoization map `_variableUsages`, keyed by node identity. -/
def getVariableUsagesCached (cache : List (Nat × List VariableUsage))
    (nodeId : Nat) (schema : GSchema) (node : ASTNode) :
    List VariableUsage × List (Nat × List VariableUsage) :=
  match cache.find? (fun p => p.1 = nodeId) with
  | some p => (p.2, cache)
  | none =>
    (getVariableUsages schema node,
     (nodeId, getVariableUsages schema node) :: cache)

/-- The usage records of the walk are exactly the Variable leaves outside
`VariableDefinition` subtrees, in document order, for every starting
TypeInfo state. -/
theorem vuList_nodes (ti : TypeInfo) (l : List ASTNode) :
    (vuList ti l).2.map VariableUsage.node = varLeavesList l := by
  induction ti, l using vuList.induct with
  | case1 ti => simp [vuList, varLeavesList]
  | case2 ti n rest hk ti2 ih =>
    simp [vuList, varLeavesList, hk]
    exact ih
  | case3 ti n rest hk ti1 pc ti2 ihc ihc2 ihr =>
    by_cases hv : n.kind = .variableK <;>
    · simp [vuList, varLeavesList, hk, hv]
      rw [ihc2]
      exact congrArg (fun x => varLeavesList (childNodes n) ++ x) ihr

/-- C7: `getVariableUsages(n)` returns one usage record per Variable leaf
under `n` that does not lie inside a `VariableDefinition` subtree
(`VariableDefinition` subtrees are skipped entirely, so variables in
variable definitions are excluded): the recorded nodes are exactly those
leaves in document order, with `type` and `defaultValue` read from the
fresh TypeInfo at each leaf (by construction of the walk); and repeated
calls with the same node return the same (cached) sequence, leaving the
memo unchanged. -/
theorem getVariableUsages_spec (schema : GSchema) (node : ASTNode) :
    (getVariableUsages schema node).map VariableUsage.node =
      varLeavesList [node] ∧
    (∀ cache nodeId,
      getVariableUsagesCached
          (getVariableUsagesCached cache nodeId schema node).2 nodeId schema
          node =
        ((getVariableUsagesCached cache nodeId schema node).1,
         (getVariableUsagesCached cache nodeId schema node).2)) := by
  constructor
  · exact vuList_nodes (TypeInfo.mk0 schema) [node]
  · intro cache nodeId
    cases hfind : cache.find? (fun p => p.1 = nodeId) with
    | some p => simp [getVariableUsagesCached, hfind]
    | none => simp [getVariableUsagesCached, hfind]

end GraphQL
